import Mathlib

/-!
fastsend: transfer plan, cipher and block-transfer protocol.

A shallow embedding of `src/fastsend.go`.

* Go `int` is the 64-bit two's complement integer: values are `Int`, and every
  arithmetic result is reduced with `wrap64`.
* A byte is a `Nat` below 256; byte strings, files and the bytes readable from a
  connection are `List Nat`.
* `crypto/md5` is a library function: the digest is a parameter `md5` of the
  worker functions.
* A connection is read through `io.ReadFull` only: the reader of a worker is the
  list of bytes the connection delivers before it ends or fails. What a worker
  does to its connection, its channels and its file is recorded as a list of
  events in program order; the results of `Write` and `Flush` are discarded, as in
  the source, and the output of `fmt.Printf` is left out.
* A file is its content; `ReadAt` and `WriteAt` fail only as their contract says
  (negative offset, end of file).
* The goroutines of the Collector, and those of the Supplier, are interleaved by an
  explicit step function on a state holding the channel contents. The channel
  `blockTransfer`, which `printStats` empties, is not part of these states.
* The end of a process (`os.Exit`, a panic) closes the connections it holds.
-/

namespace Fastsend

/-! ## Machine integers -/

/-- The number of 64-bit words, `2^64`. -/
def word64 : Int := 18446744073709551616

/-- The bound of the signed 64-bit range, `2^63`. -/
def half64 : Int := 9223372036854775808

/-- Reduction of an integer to the range of Go `int` (two's complement, 64 bit). -/
def wrap64 (x : Int) : Int := (x + half64) % word64 - half64

/-- The conversion `uint64(x)` of a Go `int`. -/
def toUint64 (x : Int) : Nat := (x % word64).toNat

/-- Go integer division on `int`: truncated quotient, wrapped. -/
def goDiv (a b : Int) : Int := wrap64 (Int.tdiv a b)

/-! ## Package-level variables and constants -/

/-- The frame tag `pReq`. -/
def pReq : Nat := 1

/-- The frame tag `pData`. -/
def pData : Nat := 2

/-- The frame tag `pStop`. -/
def pStop : Nat := 3

/-- The package-level variables the transfer uses: `blockSize`, `fileSize`, `keyb`
(an array of `sha256.Size = 32` bytes), `numBlocks` and `lstBlockSize`. -/
structure Globals where
  blockSize : Int
  fileSize : Int
  keyb : List Nat
  numBlocks : Int
  lstBlockSize : Int
deriving DecidableEq

/-- The assignments of lines 92 and 93 of `prepareBlocks`, for `blockSize ≠ 0`:
`numBlocks` and `lstBlockSize`. -/
def assignBlocks (g : Globals) : Globals :=
  let numBlocks := goDiv (wrap64 (wrap64 (g.fileSize + g.blockSize) - 1)) g.blockSize
  let lstBlockSize := wrap64 (g.fileSize - wrap64 (wrap64 (numBlocks - 1) * g.blockSize))
  { g with numBlocks := numBlocks, lstBlockSize := lstBlockSize }

/-- Function `prepareBlocks`: computes `numBlocks` and `lstBlockSize`, then makes the
channel `blockTransfer` of capacity `numBlocks`. `none` is a run-time panic: integer
division by zero, or `make(chan int, numBlocks)` with a capacity that is negative or
above `maxChan` (`makechan: size out of range`). The parameter `maxChan` is the largest
capacity with which `make(chan int, n)` returns where the program runs; the Go runtime
refuses more than `(maxAlloc - hchanSize) / 8` elements, which is below `2^45` on a
64-bit build. -/
def prepareBlocks (maxChan : Int) (g : Globals) : Option Globals :=
  if g.blockSize = 0 then none
  else if (assignBlocks g).numBlocks < 0 ∨ maxChan < (assignBlocks g).numBlocks then none
  else some (assignBlocks g)

/-- The block size selection of both workers:
`sz := blockSize; if blockId == numBlocks-1 { sz = lstBlockSize }`. -/
def sz (g : Globals) (blockId : Int) : Int :=
  if blockId = wrap64 (g.numBlocks - 1) then g.lstBlockSize else g.blockSize

/-! ## Cipher -/

/-- The loop of `encrypt` from index `i` on: `s[i] ^= keyb[i&(sha256.Size-1)]`. -/
def encryptFrom (keyb : List Nat) : Nat → List Nat → List Nat
  | _, [] => []
  | i, b :: s => (b ^^^ keyb.getD (i &&& 31) 0) :: encryptFrom keyb (i + 1) s

/-- Function `encrypt`, returning the buffer it updates in place. -/
def encrypt (keyb : List Nat) (s : List Nat) : List Nat := encryptFrom keyb 0 s

/-- The byte strings of length `n`. -/
def byteStrings (n : Nat) : Set (List Nat) := {s | s.length = n ∧ ∀ x ∈ s, x < 256}

/-! ## Frames, streams and files -/

/-- The value `binary.LittleEndian.Uint64(b)` of the first eight bytes of `b`. -/
def leUint64 (b : List Nat) : Nat :=
  (b.take 8).foldr (fun x acc => x + 256 * acc) 0

/-- The eight bytes `binary.LittleEndian.PutUint64` stores for `v`. -/
def putUint64 (v : Nat) : List Nat :=
  [v % 256, v / 256 % 256, v / 65536 % 256, v / 16777216 % 256,
   v / 4294967296 % 256, v / 1099511627776 % 256, v / 281474976710656 % 256,
   v / 72057594037927936 % 256]

/-- The call `io.ReadFull(reader, buf)` with `len(buf) = n` on a reader that still
delivers the bytes `r`: the bytes read and the bytes left, or `none` on a short read. -/
def readFull (r : List Nat) (n : Nat) : Option (List Nat × List Nat) :=
  if r.length < n then none else some (r.take n, r.drop n)

/-- The call `f.ReadAt(data, off)` with `len(data) = n` on a file of content `f`:
an error (`none`) for a negative offset or when fewer than `n` bytes are there. -/
def readAt (f : List Nat) (n : Nat) (off : Int) : Option (List Nat) :=
  if off < 0 then none
  else
    let d := (f.drop off.toNat).take n
    if d.length < n then none else some d

/-- The call `f.WriteAt(data, off)` on a file of content `f`: an error for a negative
offset; nothing is written for an empty `data`; a write past the end extends the file,
the gap reading as zero. -/
def writeAt (f : List Nat) (data : List Nat) (off : Int) : Option (List Nat) :=
  if off < 0 then none
  else if data = [] then some f
  else
    let o := off.toNat
    some ((f ++ List.replicate (o - f.length) 0).take o ++ data ++ f.drop (o + data.length))

/-- How an iteration of a worker loop ends: the loop goes on (with the bytes left on
the connection), the goroutine returns, the process exits, or the run-time panics. -/
inductive Ctl
  | loop (rest : List Nat)
  | ret
  | exit (code : Nat)
  | panic
deriving DecidableEq

/-- The effects of one iteration, in program order, and how it ends. -/
structure Outcome (ε : Type) where
  events : List ε
  next : Ctl
deriving DecidableEq

/-! ## Supplier worker (`send`, closure `connect`) -/

/-- The effects of the Supplier worker on its connection, channels and file. -/
inductive SendEvent
  | write (bs : List Nat)
  | flush
  | tch
  | stop
  | connClose
  | fClose
  | blockTransfer (n : Int)
deriving DecidableEq

/-- The three error exits of `connect`: `tch <- true; conn.Close(); f.Close(); return`. -/
def connectFail : Outcome SendEvent :=
  ⟨[SendEvent.tch, SendEvent.connClose, SendEvent.fClose], Ctl.ret⟩

/-- One iteration of the `for` loop of `connect`, on the source file content `file`
and the bytes `reader` the connection still delivers. The digest is taken of the bytes
read from the file, before `encrypt` changes the buffer. -/
def connectIter (g : Globals) (md5 : List Nat → List Nat) (file : List Nat)
    (reader : List Nat) : Outcome SendEvent :=
  match readFull reader 1 with
  | none => connectFail
  | some (opbuf, r1) =>
    if opbuf.getD 0 0 = pStop then
      ⟨[SendEvent.write opbuf, SendEvent.flush, SendEvent.stop, SendEvent.fClose], Ctl.ret⟩
    else
      match readFull r1 8 with
      | none => connectFail
      | some (idbuf, r2) =>
        let blockId := wrap64 (leUint64 idbuf : Nat)
        let n := sz g blockId
        if n < 0 then ⟨[], Ctl.panic⟩
        else
          match readAt file n.toNat (wrap64 (blockId * g.blockSize)) with
          | none => connectFail
          | some data =>
            ⟨[SendEvent.write [pData], SendEvent.write idbuf,
              SendEvent.write (encrypt g.keyb data), SendEvent.write (md5 data),
              SendEvent.flush, SendEvent.blockTransfer n], Ctl.loop r2⟩

/-- The bytes a list of Supplier effects puts on the connection. -/
def wire : List SendEvent → List Nat
  | [] => []
  | SendEvent.write bs :: es => bs ++ wire es
  | _ :: es => wire es

/-! ## Supplier process (`send`): supervisor, `connect` goroutines and channels -/

/-- The state of the Supplier process: the tokens in the channels `tch` and `stop`, the
`connect` goroutines that have not yet run their `select` on `stop`, those that have
passed it and are in `net.Dial`, those in their `for` loop, the connections the process
holds open, and the exit status once the process has ended. -/
structure Supplier where
  tch : Nat
  stop : Nat
  starting : Nat
  dialing : Nat
  workers : Nat
  conns : Nat
  exited : Option Nat
deriving DecidableEq

/-- The state when the supervisor loop starts: `tch` holds `threads` tokens. -/
def Supplier.init (threads : Nat) : Supplier :=
  { tch := threads, stop := 0, starting := 0, dialing := 0, workers := 0, conns := 0,
    exited := none }

/-- The effect of one worker event on the channels and the connections. -/
def applySend (s : Supplier) : SendEvent → Supplier
  | SendEvent.tch => { s with tch := s.tch + 1 }
  | SendEvent.stop => { s with stop := s.stop + 1 }
  | SendEvent.connClose => { s with conns := s.conns - 1 }
  | _ => s

/-- The moves of the Supplier process: the supervisor selecting `<-tch` (`cnt++` and
`go connect(cnt)`); the supervisor selecting `<-stop` (`stop <- true`, `break`,
`os.Exit(0)`); a `connect` goroutine running its `select` on `stop`; `net.Dial` failing;
`net.Dial` succeeding; a worker running one iteration of its loop on the bytes `reader`
of its connection. -/
inductive SendAction
  | spawn
  | leave
  | check
  | dialFail
  | dialOk
  | serve (reader : List Nat)
deriving DecidableEq

/-- One move of the Supplier process on the source file content `file`, `none` when the
move is not possible (a send on the full channel `stop`, of capacity 100, blocks). The end
of the process closes every connection it holds. -/
def sendStep (g : Globals) (md5 : List Nat → List Nat) (file : List Nat) (s : Supplier) :
    SendAction → Option Supplier
  | SendAction.spawn =>
    if s.exited.isSome ∨ s.tch = 0 then none
    else some { s with tch := s.tch - 1, starting := s.starting + 1 }
  | SendAction.leave =>
    if s.exited.isSome ∨ s.stop = 0 then none
    else some { s with exited := some 0, conns := 0 }
  | SendAction.check =>
    if s.exited.isSome ∨ s.starting = 0 then none
    else if 0 < s.stop then some { s with starting := s.starting - 1 }
    else some { s with starting := s.starting - 1, dialing := s.dialing + 1 }
  | SendAction.dialFail =>
    if s.exited.isSome ∨ s.dialing = 0 then none
    else some { s with dialing := s.dialing - 1, tch := s.tch + 1 }
  | SendAction.dialOk =>
    if s.exited.isSome ∨ s.dialing = 0 then none
    else some { s with dialing := s.dialing - 1, workers := s.workers + 1,
                       conns := s.conns + 1 }
  | SendAction.serve reader =>
    if s.exited.isSome ∨ s.workers = 0 then none
    else if SendEvent.stop ∈ (connectIter g md5 file reader).events ∧ 100 ≤ s.stop then none
    else
      match (connectIter g md5 file reader).next with
      | Ctl.loop _ => some ((connectIter g md5 file reader).events.foldl applySend s)
      | Ctl.ret =>
        some { (connectIter g md5 file reader).events.foldl applySend s with
          workers := s.workers - 1 }
      | Ctl.exit code =>
        some { (connectIter g md5 file reader).events.foldl applySend s with
          exited := some code, conns := 0 }
      | Ctl.panic =>
        some { (connectIter g md5 file reader).events.foldl applySend s with
          exited := some 2, conns := 0 }

/-- The state of the Supplier process after a sequence of moves. -/
def sendRun (g : Globals) (md5 : List Nat → List Nat) (file : List Nat) :
    Supplier → List SendAction → Option Supplier
  | s, [] => some s
  | s, a :: as => (sendStep g md5 file s a).bind (fun s1 => sendRun g md5 file s1 as)

/-- The number of times the supervisor selects `<-tch` in a sequence of moves. -/
def spawns : List SendAction → Nat
  | [] => 0
  | SendAction.spawn :: as => spawns as + 1
  | _ :: as => spawns as

/-! ## Collector worker (`recv`, closure `handle`) -/

/-- The effects of the Collector worker on its connection and channels. -/
inductive RecvEvent
  | write (bs : List Nat)
  | flush
  | blocks (id : Int)
  | connClose
  | thsRecv
  | doneBlocks (id : Int) (data : List Nat)
  | blockTransfer (n : Int)
  | stopped
deriving DecidableEq

/-- The request of `handle`: `buf[0] = pReq`, the index in `buf[1:9]`, written and flushed. -/
def handleRequest (blockId : Int) : List RecvEvent :=
  [RecvEvent.write (pReq :: putUint64 (toUint64 blockId)), RecvEvent.flush]

/-- The four error exits of `handle`: `blocks <- blockId; conn.Close(); <-ths; return`. -/
def handleFail (blockId : Int) : Outcome RecvEvent :=
  ⟨handleRequest blockId ++
    [RecvEvent.blocks blockId, RecvEvent.connClose, RecvEvent.thsRecv], Ctl.ret⟩

/-- The part of an iteration of `handle` after the header check: the payload of `sz`
bytes and the 16-byte digest are read, `encrypt(data)` runs, the digest `realHash` of
the result is compared with the one received, and the block is sent to `doneBlocks`. -/
def handlePayload (g : Globals) (md5 : List Nat → List Nat) (blockId blkId : Int)
    (r1 : List Nat) : Outcome RecvEvent :=
  if sz g blkId < 0 then ⟨handleRequest blockId, Ctl.panic⟩
  else
    match readFull r1 (sz g blkId).toNat with
    | none => handleFail blockId
    | some (data, r2) =>
      match readFull r2 16 with
      | none => handleFail blockId
      | some (hbuf, r3) =>
        if hbuf ≠ md5 (encrypt g.keyb data) then handleFail blockId
        else
          ⟨handleRequest blockId ++
            [RecvEvent.doneBlocks blockId (encrypt g.keyb data),
              RecvEvent.blockTransfer (sz g blkId)], Ctl.loop r3⟩

/-- One iteration of the `for` loop of `handle` after `blockId = <-blocks` was selected,
on the bytes `reader` the connection still delivers: the request, the 9-byte header,
the check of tag and index (`os.Exit(4)`), then `handlePayload`. -/
def handleIter (g : Globals) (md5 : List Nat → List Nat) (blockId : Int)
    (reader : List Nat) : Outcome RecvEvent :=
  match readFull reader 9 with
  | none => handleFail blockId
  | some (buf, r1) =>
    if buf.getD 0 0 ≠ pData ∨ wrap64 (leUint64 (buf.drop 1) : Nat) ≠ blockId then
      ⟨handleRequest blockId, Ctl.exit 4⟩
    else handlePayload g md5 blockId (wrap64 (leUint64 (buf.drop 1) : Nat)) r1

/-- The `<-stop` branch of the `select` of `handle`. -/
def handleStop : Outcome RecvEvent :=
  ⟨[RecvEvent.write [pStop], RecvEvent.flush, RecvEvent.connClose, RecvEvent.stopped], Ctl.ret⟩

/-- The bytes a list of Collector effects puts on the connection. -/
def sent : List RecvEvent → List Nat
  | [] => []
  | RecvEvent.write bs :: es => bs ++ sent es
  | _ :: es => sent es

/-! ## Collector process (`recv`): flusher, workers and channels -/

/-- Where the goroutine `flusher` stands: in the loop that fills `blocks` (before
testing `i < numBlocks`), in the loop that receives from `doneBlocks` and writes, after
`f.Close()` in the loop that drains `ths` (with its `cnt`), in the loop that receives
from `stopped`, or after `ln.Close()`. -/
inductive FlusherPc
  | enqueue (i : Nat)
  | write (i : Nat)
  | drain (cnt : Nat)
  | await (cnt i : Nat)
  | finished
deriving DecidableEq

/-- A call `f.WriteAt(block.data, int64(block.id*blockSize))` of the flusher. -/
structure WriteCall where
  id : Int
  off : Int
  data : List Nat
deriving DecidableEq

/-- The state of the Collector process: the flusher, the contents of the channels
`blocks`, `doneBlocks`, `ths`, `stop` and `stopped`, the number of workers waiting in
their `select`, the `blockId` of every worker between its `select` and the end of its
iteration, the `WriteAt` calls made so far, the destination file, and the exit status
once the process has ended. -/
structure Collector where
  pc : FlusherPc
  blocks : List Int
  doneBlocks : List (Int × List Nat)
  ths : Nat
  stop : Nat
  stopped : Nat
  idle : Nat
  held : List Int
  writes : List WriteCall
  file : List Nat
  exited : Option Nat
deriving DecidableEq

/-- The state when `go flusher()` starts, the destination file opened with content `file`. -/
def Collector.init (file : List Nat) : Collector :=
  { pc := FlusherPc.enqueue 0, blocks := [], doneBlocks := [], ths := 0, stop := 0,
    stopped := 0, idle := 0, held := [], writes := [], file := file, exited := none }

/-- Whether the flusher has passed `f.Close()`. -/
def FlusherPc.closed : FlusherPc → Bool
  | FlusherPc.enqueue _ => false
  | FlusherPc.write _ => false
  | _ => true

/-- The next step of `flusher`; `none` when it is blocked on a channel or has returned.
The result of `WriteAt` is discarded, as in the source. -/
def flusherStep (g : Globals) (s : Collector) : Option Collector :=
  match s.pc with
  | FlusherPc.enqueue i =>
    if (i : Int) < g.numBlocks then
      some { s with blocks := s.blocks ++ [(i : Int)], pc := FlusherPc.enqueue (i + 1) }
    else some { s with pc := FlusherPc.write 0 }
  | FlusherPc.write i =>
    if (i : Int) < g.numBlocks then
      match s.doneBlocks with
      | [] => none
      | block :: rest =>
        let off := wrap64 (block.1 * g.blockSize)
        some { s with
          doneBlocks := rest
          writes := s.writes ++ [⟨block.1, off, block.2⟩]
          file := (writeAt s.file block.2 off).getD s.file
          pc := FlusherPc.write (i + 1) }
    else some { s with pc := FlusherPc.drain 0 }
  | FlusherPc.drain cnt =>
    if 0 < s.ths then
      if s.stop < 100 then
        some { s with ths := s.ths - 1, stop := s.stop + 1, pc := FlusherPc.drain (cnt + 1) }
      else none
    else some { s with pc := FlusherPc.await cnt 0 }
  | FlusherPc.await cnt i =>
    if i < cnt then
      if 0 < s.stopped then
        some { s with stopped := s.stopped - 1, pc := FlusherPc.await cnt (i + 1) }
      else none
    else some { s with pc := FlusherPc.finished }
  | FlusherPc.finished => none

/-- The effect of one worker event on the channels. A worker that receives from `ths`
has put its own token there before its loop. -/
def applyRecv (s : Collector) : RecvEvent → Collector
  | RecvEvent.blocks id => { s with blocks := s.blocks ++ [id] }
  | RecvEvent.thsRecv => { s with ths := s.ths - 1 }
  | RecvEvent.doneBlocks id data => { s with doneBlocks := s.doneBlocks ++ [(id, data)] }
  | RecvEvent.stopped => { s with stopped := s.stopped + 1 }
  | _ => s

/-- The moves of the Collector process: a step of the flusher; `ln.Accept()` followed by
the start of a worker (`ths <- true`); a waiting worker selecting `blockId = <-blocks`;
a waiting worker selecting `<-stop`; the worker holding `blockId` running the rest of
its iteration on the bytes `reader` of its connection; the main goroutine leaving its
loop once the listener is closed. -/
inductive Action
  | flusher
  | accept
  | claim
  | workerStop
  | respond (blockId : Int) (reader : List Nat)
  | mainExit
deriving DecidableEq

/-- One move of the Collector process, `none` when the move is not possible. -/
def step (g : Globals) (md5 : List Nat → List Nat) (s : Collector) :
    Action → Option Collector
  | Action.flusher => if s.exited.isSome then none else flusherStep g s
  | Action.accept =>
    if s.exited.isSome ∨ s.pc = FlusherPc.finished ∨ 100 ≤ s.ths then none
    else some { s with ths := s.ths + 1, idle := s.idle + 1 }
  | Action.claim =>
    if s.exited.isSome ∨ s.idle = 0 then none
    else
      match s.blocks with
      | [] => none
      | blockId :: rest =>
        some { s with blocks := rest, idle := s.idle - 1, held := blockId :: s.held }
  | Action.workerStop =>
    if s.exited.isSome ∨ s.idle = 0 ∨ s.stop = 0 ∨ 100 ≤ s.stopped then none
    else
      some (handleStop.events.foldl applyRecv { s with stop := s.stop - 1, idle := s.idle - 1 })
  | Action.respond blockId reader =>
    if s.exited.isSome ∨ blockId ∉ s.held then none
    else
      let out := handleIter g md5 blockId reader
      let s1 := out.events.foldl applyRecv s
      match out.next with
      | Ctl.loop _ => some { s1 with held := s1.held.erase blockId, idle := s1.idle + 1 }
      | Ctl.ret => some { s1 with held := s1.held.erase blockId }
      | Ctl.exit code => some { s1 with exited := some code }
      | Ctl.panic => some { s1 with exited := some 2 }
  | Action.mainExit =>
    if s.exited.isSome ∨ s.pc ≠ FlusherPc.finished then none
    else some { s with exited := some 0 }

/-- The state after a sequence of moves. -/
def run (g : Globals) (md5 : List Nat → List Nat) : Collector → List Action → Option Collector
  | s, [] => some s
  | s, a :: as => (step g md5 s a).bind (fun s1 => run g md5 s1 as)

/-- The states of the Collector process that a run from the start can be in. -/
def Reachable (g : Globals) (md5 : List Nat → List Nat) (s : Collector) : Prop :=
  ∃ file as, run g md5 (Collector.init file) as = some s

/-- The number of indices in flight: held by a worker. -/
def Collector.inFlight (s : Collector) : Nat := s.held.length

/-- The number of pending indices: the content of `blocks`. -/
def Collector.pending (s : Collector) : Nat := s.blocks.length

/-- The number of completed blocks: sent to `doneBlocks`, received by the flusher or not. -/
def Collector.completed (s : Collector) : Nat := s.doneBlocks.length + s.writes.length

/-- The number of indices the flusher has put into `blocks` so far. -/
def Collector.enqueued (g : Globals) (s : Collector) : Nat :=
  match s.pc with
  | FlusherPc.enqueue i => i
  | _ => g.numBlocks.toNat

/-- The bookkeeping the flusher and the workers maintain together: the indices in
`blocks`, held by workers, in `doneBlocks` and already written are, counted with
multiplicity, the indices `0 .. enqueued-1`; the flusher has made as many `WriteAt`
calls as its loop counter says, each at the offset computed from the index. -/
def Inv (g : Globals) (s : Collector) : Prop :=
  s.blocks.length + s.held.length + s.doneBlocks.length + s.writes.length = s.enqueued g ∧
    (∀ x : Int, s.blocks.count x + s.held.count x + (s.doneBlocks.map Prod.fst).count x
        + (s.writes.map WriteCall.id).count x
      = ((List.range (s.enqueued g)).map Int.ofNat).count x) ∧
    ((s.enqueued g : Int) ≤ g.numBlocks) ∧
    (match s.pc with
      | FlusherPc.enqueue _ => s.writes = []
      | FlusherPc.write i => s.writes.length = i ∧ (i : Int) ≤ g.numBlocks
      | _ => (s.writes.length : Int) = g.numBlocks) ∧
    ∀ w ∈ s.writes, w.off = wrap64 (w.id * g.blockSize)

/-! ## Concrete data for evaluating the definitions -/

/-- A stand-in for the digest with a 16-byte result (not MD5): fifteen zero bytes and
the byte sum. -/
def sumDigest (data : List Nat) : List Nat := List.replicate 15 0 ++ [data.sum % 256]

/-- A 32-byte key. -/
def demoKey : List Nat := (List.range 32).map (fun i => 7 * i + 1)

/-- A bound of the capacity of a channel of `int` on a 64-bit build: `maxAlloc / 8`
with `maxAlloc = 2^48`. -/
def chanBound64 : Int := 35184372088832

/-- The variables for a file of `2^62` bytes and `blockSize = 1`, before `prepareBlocks`. -/
def hugeArgs : Globals :=
  { blockSize := 1, fileSize := 4611686018427387904, keyb := [], numBlocks := 0,
    lstBlockSize := 0 }

/-- The variables for a file of 5 bytes and `blockSize = 2`, before `prepareBlocks`. -/
def demoArgs : Globals :=
  { blockSize := 2, fileSize := 5, keyb := demoKey, numBlocks := 0, lstBlockSize := 0 }

/-- The variables for a file of 5 bytes and `blockSize = 2`, after `prepareBlocks`. -/
def demoGlobals : Globals :=
  { blockSize := 2, fileSize := 5, keyb := demoKey, numBlocks := 3, lstBlockSize := 1 }

/-- A source file of 5 bytes. -/
def demoFile : List Nat := [10, 20, 30, 40, 50]

/-- A state of the Supplier process with one worker on its connection and no free slot. -/
def demoSupplier : Supplier :=
  { tch := 0, stop := 0, starting := 0, dialing := 0, workers := 1, conns := 1,
    exited := none }

/-- The bytes the Supplier worker replies to the request of index `id`. -/
def demoReply (id : Int) : List Nat :=
  wire (connectIter demoGlobals sumDigest demoFile (pReq :: putUint64 (toUint64 id))).events

/-- A run of the Collector on a preallocated file of 5 bytes: the flusher fills `blocks`,
one worker fetches the three blocks, the flusher writes them and closes the file. -/
def demoRun : List Action :=
  [Action.flusher, Action.flusher, Action.flusher, Action.flusher, Action.accept,
   Action.claim, Action.respond 0 (demoReply 0),
   Action.claim, Action.respond 1 (demoReply 1),
   Action.claim, Action.respond 2 (demoReply 2),
   Action.flusher, Action.flusher, Action.flusher, Action.flusher]

/-- The state of the Collector after `demoRun`. -/
def demoClosed : Collector :=
  { pc := FlusherPc.drain 0, blocks := [], doneBlocks := [], ths := 1, stop := 0,
    stopped := 0, idle := 1, held := [],
    writes := [⟨0, 0, [10, 20]⟩, ⟨1, 2, [30, 40]⟩, ⟨2, 4, [50]⟩],
    file := [10, 20, 30, 40, 50], exited := none }

/-- The state of the Collector after the flusher has put index 0 into `blocks` and a
first worker has taken it. -/
def demoClaimed : Collector :=
  { pc := FlusherPc.enqueue 1, blocks := [], doneBlocks := [], ths := 1, stop := 0,
    stopped := 0, idle := 0, held := [0], writes := [], file := [0, 0, 0, 0, 0],
    exited := none }

/-! ## Lemmas: machine integers -/

theorem wrap64_eq_self {x : Int} (h1 : -half64 ≤ x) (h2 : x < half64) : wrap64 x = x := by
  simp only [wrap64, word64, half64] at *
  omega

theorem wrap64_range (x : Int) : -half64 ≤ wrap64 x ∧ wrap64 x < half64 := by
  simp only [wrap64, word64, half64]
  omega

/-- Quotient facts used by the transfer plan. -/
theorem plan_quotient {f b : Int} (hf : 0 ≤ f) (hb : 0 < b) :
    0 ≤ (f + b - 1) / b ∧ ((f + b - 1) / b - 1) * b < f ∧ f ≤ (f + b - 1) / b * b ∧
      (f + b - 1) / b ≤ f + b - 1 ∧ -b ≤ ((f + b - 1) / b - 1) * b ∧
      (0 < f → 1 ≤ (f + b - 1) / b) := by
  have h1 := Int.ediv_add_emod (f + b - 1) b
  have h2 := Int.emod_nonneg (f + b - 1) (ne_of_gt hb)
  have h3 := Int.emod_lt_of_pos (f + b - 1) hb
  generalize (f + b - 1) / b = q at *
  generalize (f + b - 1) % b = r at *
  have hq : 0 ≤ q := by
    by_contra hc
    have : q ≤ -1 := by omega
    have : b * q ≤ -b := by nlinarith
    omega
  have hq1 : 0 < f → 1 ≤ q := by
    intro hf0
    by_contra hc
    have : q = 0 := by omega
    subst this
    omega
  refine ⟨hq, ?_, ?_, ?_, ?_, hq1⟩
  · nlinarith
  · nlinarith
  · nlinarith
  · nlinarith

/-- What lines 92 and 93 assign when nothing overflows. -/
theorem assignBlocks_eq {g : Globals} (hf : 0 < g.fileSize) (hb : 0 < g.blockSize)
    (hno : g.fileSize + g.blockSize - 1 < half64) :
    assignBlocks g = { g with
      numBlocks := (g.fileSize + g.blockSize - 1) / g.blockSize
      lstBlockSize :=
        g.fileSize - ((g.fileSize + g.blockSize - 1) / g.blockSize - 1) * g.blockSize } := by
  obtain ⟨hq1, hq2, hq3, hq4, hq5, _⟩ := plan_quotient (le_of_lt hf) hb
  have hh : half64 = 9223372036854775808 := rfl
  have w1 : wrap64 (wrap64 (g.fileSize + g.blockSize) - 1) = g.fileSize + g.blockSize - 1 := by
    simp only [wrap64, word64, half64] at *
    omega
  have w2 : goDiv (g.fileSize + g.blockSize - 1) g.blockSize
      = (g.fileSize + g.blockSize - 1) / g.blockSize := by
    unfold goDiv
    rw [Int.tdiv_eq_ediv (by omega) (by omega)]
    exact wrap64_eq_self (by omega) (by omega)
  have w3 : wrap64 ((g.fileSize + g.blockSize - 1) / g.blockSize - 1)
      = (g.fileSize + g.blockSize - 1) / g.blockSize - 1 :=
    wrap64_eq_self (by omega) (by omega)
  have w4 : wrap64 (((g.fileSize + g.blockSize - 1) / g.blockSize - 1) * g.blockSize)
      = ((g.fileSize + g.blockSize - 1) / g.blockSize - 1) * g.blockSize :=
    wrap64_eq_self (by omega) (by omega)
  have hl : g.fileSize - ((g.fileSize + g.blockSize - 1) / g.blockSize - 1) * g.blockSize
      ≤ g.blockSize := by
    have : 0 ≤ (g.fileSize + g.blockSize - 1) / g.blockSize * g.blockSize - g.fileSize := by
      omega
    nlinarith
  have w5 : wrap64 (g.fileSize
        - ((g.fileSize + g.blockSize - 1) / g.blockSize - 1) * g.blockSize)
      = g.fileSize - ((g.fileSize + g.blockSize - 1) / g.blockSize - 1) * g.blockSize :=
    wrap64_eq_self (by omega) (by omega)
  unfold assignBlocks
  simp only [w1, w2, w3, w4, w5]

/-- What `prepareBlocks` returns when nothing overflows. -/
theorem prepareBlocks_eq (maxChan : Int) {g : Globals} (hf : 0 < g.fileSize)
    (hb : 0 < g.blockSize) (hno : g.fileSize + g.blockSize - 1 < half64) :
    prepareBlocks maxChan g =
      if maxChan < (g.fileSize + g.blockSize - 1) / g.blockSize then none
      else some { g with
        numBlocks := (g.fileSize + g.blockSize - 1) / g.blockSize
        lstBlockSize :=
          g.fileSize - ((g.fileSize + g.blockSize - 1) / g.blockSize - 1) * g.blockSize } := by
  obtain ⟨hq1, _⟩ := plan_quotient (le_of_lt hf) hb
  unfold prepareBlocks
  rw [if_neg (by omega), assignBlocks_eq hf hb hno]
  dsimp only
  by_cases hm : maxChan < (g.fileSize + g.blockSize - 1) / g.blockSize
  · rw [if_pos (Or.inr hm), if_pos hm]
  · rw [if_neg (by
      rintro (h | h)
      · omega
      · exact hm h), if_neg hm]

/-- The capacity test of `prepareBlocks` in terms of the file size. -/
theorem capacity_iff (maxChan : Int) {f b : Int} (hf : 0 < f) (hb : 0 < b) :
    maxChan < (f + b - 1) / b ↔ ¬ f ≤ maxChan * b := by
  obtain ⟨_, hq2, hq3, _⟩ := plan_quotient (le_of_lt hf) hb
  constructor
  · intro h hle
    have : 0 ≤ ((f + b - 1) / b - 1 - maxChan) * b := mul_nonneg (by omega) (by omega)
    nlinarith
  · intro h
    by_contra hc
    have : 0 ≤ (maxChan - (f + b - 1) / b) * b := mul_nonneg (by omega) (by omega)
    apply h
    nlinarith

/-- The facts about a transfer plan the workers rely on. -/
theorem plan_facts {maxChan : Int} {g0 g : Globals} (hf : 0 < g0.fileSize)
    (hb : 0 < g0.blockSize) (hno : g0.fileSize + g0.blockSize - 1 < half64)
    (hprep : prepareBlocks maxChan g0 = some g) :
    g.blockSize = g0.blockSize ∧ g.fileSize = g0.fileSize ∧ g.keyb = g0.keyb ∧
      0 ≤ g.numBlocks ∧ g.numBlocks < half64 ∧
      g.lstBlockSize = g.fileSize - (g.numBlocks - 1) * g.blockSize ∧
      ∀ id : Int, 0 ≤ id → id < g.numBlocks →
        sz g id = (if id = g.numBlocks - 1 then g.lstBlockSize else g.blockSize) ∧
        0 < sz g id ∧ sz g id ≤ g.blockSize ∧ 0 ≤ id * g.blockSize ∧
        id * g.blockSize + sz g id ≤ g.fileSize ∧ id * g.blockSize < half64 := by
  obtain ⟨hq1, hq2, hq3, hq4, hq5, _⟩ := plan_quotient (le_of_lt hf) hb
  have hh : half64 = 9223372036854775808 := rfl
  rw [prepareBlocks_eq maxChan hf hb hno] at hprep
  by_cases hm : maxChan < (g0.fileSize + g0.blockSize - 1) / g0.blockSize
  · rw [if_pos hm] at hprep
    exact absurd hprep (by simp)
  rw [if_neg hm] at hprep
  injection hprep with hprep
  subst hprep
  refine ⟨rfl, rfl, rfl, hq1, ?_, rfl, ?_⟩
  · show (g0.fileSize + g0.blockSize - 1) / g0.blockSize < half64
    omega
  intro id h0 h1
  dsimp only at h1 ⊢
  have hw : wrap64 ((g0.fileSize + g0.blockSize - 1) / g0.blockSize - 1)
      = (g0.fileSize + g0.blockSize - 1) / g0.blockSize - 1 :=
    wrap64_eq_self (by omega) (by omega)
  simp only [sz, hw] at *
  have hidb : 0 ≤ id * g0.blockSize := mul_nonneg h0 (by omega)
  by_cases hlast : id = (g0.fileSize + g0.blockSize - 1) / g0.blockSize - 1
  · simp only [if_pos hlast]
    rw [← hlast] at hq2 hq5 ⊢
    have h3' : g0.fileSize ≤ (id + 1) * g0.blockSize := by
      have : (g0.fileSize + g0.blockSize - 1) / g0.blockSize = id + 1 := by omega
      rw [this] at hq3
      exact hq3
    refine ⟨trivial, by omega, by nlinarith, hidb, by omega, by omega⟩
  · simp only [if_neg hlast]
    have h4 : (id + 1) * g0.blockSize
        ≤ ((g0.fileSize + g0.blockSize - 1) / g0.blockSize - 1) * g0.blockSize :=
      mul_le_mul_of_nonneg_right (by omega) (by omega)
    refine ⟨trivial, by omega, le_rfl, hidb, by nlinarith, by nlinarith⟩

/-- The sizes of the blocks before the last one add up to a multiple of `blockSize`. -/
theorem sum_sz_front (g : Globals) (n : Nat) (hn : wrap64 (g.numBlocks - 1) = (n : Int)) :
    ∀ k : Nat, k ≤ n →
      ((List.range k).map (fun i : Nat => sz g (i : Int))).sum = (k : Int) * g.blockSize := by
  intro k
  induction k with
  | zero => intro _; simp
  | succ k ih =>
    intro hk
    have hne : ((k : Nat) : Int) ≠ wrap64 (g.numBlocks - 1) := by
      rw [hn]
      omega
    rw [List.range_succ, List.map_append, List.sum_append, ih (by omega)]
    simp only [List.map_cons, List.map_nil, List.sum_cons, List.sum_nil, sz, if_neg hne]
    push_cast
    ring

/-- The quotient of the plan is the ceiling of `fileSize / blockSize`. -/
theorem quotient_eq_ceil {f b : Int} (hf : 0 < f) (hb : 0 < b) :
    (f + b - 1) / b = ⌈(f : ℚ) / (b : ℚ)⌉ := by
  obtain ⟨_, hq2, hq3, _⟩ := plan_quotient (le_of_lt hf) hb
  symm
  rw [Int.ceil_eq_iff]
  have hbq : (0 : ℚ) < (b : ℚ) := by exact_mod_cast hb
  constructor
  · rw [lt_div_iff₀ hbq]
    have : (((f + b - 1) / b - 1) * b : Int) < f := hq2
    exact_mod_cast this
  · rw [div_le_iff₀ hbq]
    exact_mod_cast hq3

/-- Claim C1 (as amended). For `fileSize > 0` and `blockSize > 0` without overflow, lines
92 and 93 assign `numBlocks = ⌈fileSize / blockSize⌉` and
`lstBlockSize = fileSize - (numBlocks-1)*blockSize`; the sizes `sz` of the blocks
`0 .. numBlocks-1` add up to `fileSize`, every block before the last has size `blockSize`,
and the last has a size in `(0, blockSize]`. `prepareBlocks` returns with these values
when `fileSize ≤ maxChan * blockSize`, that is when `numBlocks` is a capacity
`make(chan int, numBlocks)` accepts, and panics otherwise. -/
theorem prepareBlocks_partition (maxChan : Int) (g : Globals) (hf : 0 < g.fileSize)
    (hb : 0 < g.blockSize) (hno : g.fileSize + g.blockSize - 1 < half64) :
    prepareBlocks maxChan g
        = (if g.fileSize ≤ maxChan * g.blockSize then some (assignBlocks g) else none) ∧
      (assignBlocks g).blockSize = g.blockSize ∧ (assignBlocks g).fileSize = g.fileSize ∧
      (assignBlocks g).numBlocks = ⌈(g.fileSize : ℚ) / (g.blockSize : ℚ)⌉ ∧
      (assignBlocks g).lstBlockSize
        = g.fileSize - ((assignBlocks g).numBlocks - 1) * g.blockSize ∧
      ((List.range (assignBlocks g).numBlocks.toNat).map
          (fun i : Nat => sz (assignBlocks g) (i : Int))).sum = g.fileSize ∧
      (∀ id : Int, 0 ≤ id → id < (assignBlocks g).numBlocks - 1 →
        sz (assignBlocks g) id = g.blockSize) ∧
      sz (assignBlocks g) ((assignBlocks g).numBlocks - 1) = (assignBlocks g).lstBlockSize ∧
      0 < sz (assignBlocks g) ((assignBlocks g).numBlocks - 1) ∧
      sz (assignBlocks g) ((assignBlocks g).numBlocks - 1) ≤ g.blockSize := by
  obtain ⟨_, hq2, hq3, hq4, _, hq1'⟩ := plan_quotient (le_of_lt hf) hb
  have hq1 := hq1' hf
  have hh : half64 = 9223372036854775808 := rfl
  have hcap := capacity_iff maxChan hf hb
  have hprep := prepareBlocks_eq maxChan hf hb hno
  rw [assignBlocks_eq hf hb hno]
  refine ⟨?_, rfl, rfl, quotient_eq_ceil hf hb, rfl, ?_, ?_, ?_, ?_, ?_⟩
  · rw [hprep]
    by_cases hm : maxChan < (g.fileSize + g.blockSize - 1) / g.blockSize
    · rw [if_pos hm, if_neg (hcap.mp hm)]
    · rw [if_neg hm, if_pos (by
        by_contra hc
        exact hm (hcap.mpr hc))]
  · generalize hp : ({ g with
      numBlocks := (g.fileSize + g.blockSize - 1) / g.blockSize
      lstBlockSize :=
        g.fileSize - ((g.fileSize + g.blockSize - 1) / g.blockSize - 1) * g.blockSize }
        : Globals) = p
    have hpn : p.numBlocks = (g.fileSize + g.blockSize - 1) / g.blockSize := by rw [← hp]
    have hpl : p.lstBlockSize
        = g.fileSize - ((g.fileSize + g.blockSize - 1) / g.blockSize - 1) * g.blockSize := by
      rw [← hp]
    have hpb : p.blockSize = g.blockSize := by rw [← hp]
    obtain ⟨n, hn⟩ : ∃ n : Nat, p.numBlocks = (n : Int) + 1 :=
      ⟨(p.numBlocks - 1).toNat, by omega⟩
    have hw : wrap64 (p.numBlocks - 1) = (n : Int) := by
      rw [wrap64_eq_self (by omega) (by omega)]
      omega
    have htn : p.numBlocks.toNat = n + 1 := by omega
    rw [htn, List.range_succ, List.map_append, List.sum_append, sum_sz_front p n hw n le_rfl]
    simp only [List.map_cons, List.map_nil, List.sum_cons, List.sum_nil, sz, hw, if_true]
    rw [hpl, hpb, ← hpn, hn]
    ring
  · intro id h0 h1
    have hw : wrap64 ((g.fileSize + g.blockSize - 1) / g.blockSize - 1)
        = (g.fileSize + g.blockSize - 1) / g.blockSize - 1 :=
      wrap64_eq_self (by omega) (by omega)
    simp only [sz, hw]
    rw [if_neg (by
      intro h
      simp only [h] at h1
      omega)]
  all_goals
    have hw : wrap64 ((g.fileSize + g.blockSize - 1) / g.blockSize - 1)
        = (g.fileSize + g.blockSize - 1) / g.blockSize - 1 :=
      wrap64_eq_self (by omega) (by omega)
    simp only [sz, hw, if_true]
  · omega
  · have : 0 ≤ (g.fileSize + g.blockSize - 1) / g.blockSize * g.blockSize - g.fileSize := by
      omega
    nlinarith

/-- The transfer plan of a 5-byte file with `blockSize = 2`. -/
theorem prepareBlocks_partition_witness :
    prepareBlocks chanBound64 demoArgs
        = (if demoArgs.fileSize ≤ chanBound64 * demoArgs.blockSize
            then some (assignBlocks demoArgs) else none) ∧
      (assignBlocks demoArgs).blockSize = demoArgs.blockSize ∧
      (assignBlocks demoArgs).fileSize = demoArgs.fileSize ∧
      (assignBlocks demoArgs).numBlocks
        = ⌈(demoArgs.fileSize : ℚ) / (demoArgs.blockSize : ℚ)⌉ ∧
      (assignBlocks demoArgs).lstBlockSize
        = demoArgs.fileSize - ((assignBlocks demoArgs).numBlocks - 1) * demoArgs.blockSize ∧
      ((List.range (assignBlocks demoArgs).numBlocks.toNat).map
          (fun i : Nat => sz (assignBlocks demoArgs) (i : Int))).sum = demoArgs.fileSize ∧
      (∀ id : Int, 0 ≤ id → id < (assignBlocks demoArgs).numBlocks - 1 →
        sz (assignBlocks demoArgs) id = demoArgs.blockSize) ∧
      sz (assignBlocks demoArgs) ((assignBlocks demoArgs).numBlocks - 1)
        = (assignBlocks demoArgs).lstBlockSize ∧
      0 < sz (assignBlocks demoArgs) ((assignBlocks demoArgs).numBlocks - 1) ∧
      sz (assignBlocks demoArgs) ((assignBlocks demoArgs).numBlocks - 1)
        ≤ demoArgs.blockSize :=
  prepareBlocks_partition chanBound64 demoArgs (by decide) (by decide) (by decide)

/-- Claim C1 (as stated). `prepareBlocks` does not return for every `fileSize > 0` and
`blockSize > 0` without overflow: for a file of `2^62` bytes and `blockSize = 1` the
capacity `numBlocks = 2^62` is above what `make(chan int, numBlocks)` accepts, and the
call panics. -/
theorem prepareBlocks_partition_counterexample :
    0 < hugeArgs.fileSize ∧ 0 < hugeArgs.blockSize ∧
      hugeArgs.fileSize + hugeArgs.blockSize - 1 < half64 ∧
      (assignBlocks hugeArgs).numBlocks = 4611686018427387904 ∧
      chanBound64 < (assignBlocks hugeArgs).numBlocks ∧
      prepareBlocks chanBound64 hugeArgs = none := by
  decide

/-! ## Lemmas and theorems: cipher -/

theorem encryptFrom_length (keyb : List Nat) :
    ∀ (s : List Nat) (i : Nat), (encryptFrom keyb i s).length = s.length := by
  intro s
  induction s with
  | nil => intro i; rfl
  | cons b s ih => intro i; simp [encryptFrom, ih]

theorem encryptFrom_twice (keyb : List Nat) :
    ∀ (s : List Nat) (i : Nat), encryptFrom keyb i (encryptFrom keyb i s) = s := by
  intro s
  induction s with
  | nil => intro i; rfl
  | cons b s ih =>
    intro i
    simp only [encryptFrom, ih, Nat.xor_assoc, Nat.xor_self, Nat.xor_zero]

theorem encryptFrom_getElem? (keyb : List Nat) (hk : keyb.length = 32) :
    ∀ (s : List Nat) (i j x : Nat), s[j]? = some x →
      ∃ k, keyb[(i + j) % 32]? = some k ∧ (encryptFrom keyb i s)[j]? = some (x ^^^ k) := by
  intro s
  induction s with
  | nil => intro i j x h; simp at h
  | cons b s ih =>
    intro i j x h
    cases j with
    | zero =>
      have hb : b = x := by simpa using h
      have hlt : i % 32 < keyb.length := by omega
      refine ⟨keyb[i % 32], by simp [List.getElem?_eq_getElem hlt], ?_⟩
      have hand : i &&& 31 = i % 32 := Nat.and_pow_two_sub_one_eq_mod i 5
      simp [encryptFrom, hand, hb, List.getD_eq_getElem?_getD, List.getElem?_eq_getElem hlt]
    | succ j =>
      have h1 : s[j]? = some x := by simpa using h
      obtain ⟨k, hk1, hk2⟩ := ih (i + 1) j x h1
      refine ⟨k, ?_, ?_⟩
      · rw [← hk1]
        congr 2
        omega
      · simpa [encryptFrom] using hk2

theorem getD_lt_of_forall {keyb : List Nat} (hkb : ∀ k ∈ keyb, k < 256) (i : Nat) :
    keyb.getD i 0 < 256 := by
  rw [List.getD_eq_getElem?_getD]
  cases h : keyb[i]? with
  | none => simp
  | some k => exact hkb k (List.getElem?_mem h)

theorem encryptFrom_bytes {keyb : List Nat} (hkb : ∀ k ∈ keyb, k < 256) :
    ∀ (s : List Nat) (i : Nat), (∀ x ∈ s, x < 256) → ∀ y ∈ encryptFrom keyb i s, y < 256 := by
  intro s
  induction s with
  | nil => intro i _ y hy; simp [encryptFrom] at hy
  | cons b s ih =>
    intro i hs y hy
    simp only [encryptFrom, List.mem_cons] at hy
    rcases hy with rfl | hy
    · exact Nat.xor_lt_two_pow (n := 8) (hs b (List.mem_cons_self _ _))
        (getD_lt_of_forall hkb _)
    · exact ih (i + 1) (fun x hx => hs x (List.mem_cons_of_mem _ hx)) y hy

theorem encrypt_twice (keyb s : List Nat) : encrypt keyb (encrypt keyb s) = s :=
  encryptFrom_twice keyb s 0

theorem encrypt_length (keyb s : List Nat) : (encrypt keyb s).length = s.length :=
  encryptFrom_length keyb s 0

/-- Claim C2. For a 32-byte key, `encrypt` applied twice returns the buffer, it XORs byte
`i` with key byte `i mod 32`, it keeps the length, and it is a bijection on the byte
strings of every fixed length. -/
theorem encrypt_involution (keyb : List Nat) (hk : keyb.length = 32)
    (hkb : ∀ k ∈ keyb, k < 256) :
    (∀ b, encrypt keyb (encrypt keyb b) = b) ∧
      (∀ b, (encrypt keyb b).length = b.length) ∧
      (∀ (b : List Nat) (i x : Nat), b[i]? = some x →
        ∃ k, keyb[i % 32]? = some k ∧ (encrypt keyb b)[i]? = some (x ^^^ k)) ∧
      ∀ n, Set.BijOn (encrypt keyb) (byteStrings n) (byteStrings n) := by
  refine ⟨encrypt_twice keyb, encrypt_length keyb, ?_, ?_⟩
  · intro b i x h
    have := encryptFrom_getElem? keyb hk b 0 i x h
    simpa [encrypt] using this
  · intro n
    have maps : ∀ s ∈ byteStrings n, encrypt keyb s ∈ byteStrings n := by
      intro s hs
      exact ⟨by rw [encrypt_length]; exact hs.1, encryptFrom_bytes hkb s 0 hs.2⟩
    refine ⟨maps, ?_, ?_⟩
    · intro a _ b _ hab
      have := congrArg (encrypt keyb) hab
      simpa [encrypt_twice] using this
    · intro y hy
      exact ⟨encrypt keyb y, maps y hy, encrypt_twice keyb y⟩

/-- The cipher under the key `demoKey`. -/
theorem encrypt_involution_witness :
    (∀ b, encrypt demoKey (encrypt demoKey b) = b) ∧
      (∀ b, (encrypt demoKey b).length = b.length) ∧
      (∀ (b : List Nat) (i x : Nat), b[i]? = some x →
        ∃ k, demoKey[i % 32]? = some k ∧ (encrypt demoKey b)[i]? = some (x ^^^ k)) ∧
      ∀ n, Set.BijOn (encrypt demoKey) (byteStrings n) (byteStrings n) :=
  encrypt_involution demoKey (by decide) (by decide)

/-! ## Lemmas: frames and streams -/

theorem putUint64_length (v : Nat) : (putUint64 v).length = 8 := rfl

theorem putUint64_bytes (v : Nat) : ∀ x ∈ putUint64 v, x < 256 := by
  intro x hx
  simp only [putUint64, List.mem_cons, List.mem_singleton, List.mem_nil_iff, or_false] at hx
  omega

theorem leUint64_putUint64 {v : Nat} (hv : v < 18446744073709551616) :
    leUint64 (putUint64 v) = v := by
  simp only [leUint64, putUint64, List.take, List.foldr]
  omega

theorem leUint64_append (a r : List Nat) (ha : a.length = 8) :
    leUint64 (a ++ r) = leUint64 a := by
  have h1 : (a ++ r).take 8 = a := by
    rw [← ha]
    exact List.take_left' rfl
  have h2 : a.take 8 = a := by
    rw [← ha]
    exact List.take_length a
  simp only [leUint64, h1, h2]

theorem putUint64_leUint64 {idx : List Nat} (hlen : idx.length = 8)
    (hb : ∀ x ∈ idx, x < 256) :
    putUint64 (leUint64 idx) = idx ∧ leUint64 idx < 18446744073709551616 := by
  match idx, hlen with
  | [b0, b1, b2, b3, b4, b5, b6, b7], _ =>
    have h0 := hb b0 (by simp)
    have h1 := hb b1 (by simp)
    have h2 := hb b2 (by simp)
    have h3 := hb b3 (by simp)
    have h4 := hb b4 (by simp)
    have h5 := hb b5 (by simp)
    have h6 := hb b6 (by simp)
    have h7 := hb b7 (by simp)
    simp only [leUint64, putUint64, List.take, List.foldr]
    refine ⟨?_, by omega⟩
    simp only [List.cons.injEq, and_true]
    omega

theorem toUint64_lt (x : Int) : toUint64 x < 18446744073709551616 := by
  simp only [toUint64, word64]
  omega

theorem wrap64_toUint64 {x : Int} (h1 : -half64 ≤ x) (h2 : x < half64) :
    wrap64 ((toUint64 x : Nat) : Int) = x := by
  simp only [toUint64, wrap64, word64, half64] at *
  omega

theorem toUint64_wrap64 {v : Nat} (hv : v < 18446744073709551616) :
    toUint64 (wrap64 (v : Int)) = v := by
  simp only [toUint64, wrap64, word64, half64] at *
  omega

/-- The index a frame carries is the requested one exactly when its eight bytes are
the bytes of the request. -/
theorem index_eq_iff {idx : List Nat} (hlen : idx.length = 8) (hb : ∀ x ∈ idx, x < 256)
    {id : Int} (h1 : -half64 ≤ id) (h2 : id < half64) :
    wrap64 ((leUint64 idx : Nat) : Int) = id ↔ idx = putUint64 (toUint64 id) := by
  obtain ⟨hp, hl⟩ := putUint64_leUint64 hlen hb
  constructor
  · intro h
    rw [← h, toUint64_wrap64 hl, hp]
  · intro h
    rw [h, leUint64_putUint64 (toUint64_lt id), wrap64_toUint64 h1 h2]

theorem readFull_append (a r : List Nat) : readFull (a ++ r) a.length = some (a, r) := by
  simp [readFull]

theorem readFull_append_of_eq (a r : List Nat) {n : Nat} (h : a.length = n) :
    readFull (a ++ r) n = some (a, r) := by
  subst h
  exact readFull_append a r

/-! ## Lemmas and theorems: Supplier worker -/

theorem readFull_one (t : Nat) (r : List Nat) : readFull (t :: r) 1 = some ([t], r) := by
  simp [readFull]

/-- The iteration of `connect` on a frame with any tag but `pStop`, when the buffer can
be made and the file read succeeds. -/
theorem connectIter_serve_aux (g : Globals) (md5 : List Nat → List Nat)
    (file rest p idbuf : List Nat) (t : Nat) (id : Int) (ht : t ≠ pStop)
    (hlen : idbuf.length = 8) (hid : wrap64 ((leUint64 idbuf : Nat) : Int) = id)
    (hsz : 0 ≤ sz g id)
    (hread : readAt file (sz g id).toNat (wrap64 (id * g.blockSize)) = some p) :
    connectIter g md5 file (t :: (idbuf ++ rest)) =
      ⟨[SendEvent.write [pData], SendEvent.write idbuf,
        SendEvent.write (encrypt g.keyb p), SendEvent.write (md5 p), SendEvent.flush,
        SendEvent.blockTransfer (sz g id)], Ctl.loop rest⟩ := by
  unfold connectIter
  rw [readFull_one]
  simp only [List.getD_cons_zero, if_neg ht]
  rw [readFull_append_of_eq _ _ hlen]
  simp only [hid, if_neg (not_lt.mpr hsz), hread]

theorem connectIter_serve (g : Globals) (md5 : List Nat → List Nat) (file rest p : List Nat)
    (t : Nat) (id : Int) (ht : t ≠ pStop) (h1 : -half64 ≤ id) (h2 : id < half64)
    (hsz : 0 ≤ sz g id)
    (hread : readAt file (sz g id).toNat (wrap64 (id * g.blockSize)) = some p) :
    connectIter g md5 file (t :: (putUint64 (toUint64 id) ++ rest)) =
      ⟨[SendEvent.write [pData], SendEvent.write (putUint64 (toUint64 id)),
        SendEvent.write (encrypt g.keyb p), SendEvent.write (md5 p), SendEvent.flush,
        SendEvent.blockTransfer (sz g id)], Ctl.loop rest⟩ := by
  have hid : wrap64 ((leUint64 (putUint64 (toUint64 id)) : Nat) : Int) = id := by
    rw [leUint64_putUint64 (toUint64_lt id), wrap64_toUint64 h1 h2]
  exact connectIter_serve_aux g md5 file rest p _ t id ht (putUint64_length _) hid hsz hread

theorem readAt_eq {file p : List Nat} {n : Nat} {off : Int} (h : readAt file n off = some p) :
    0 ≤ off ∧ p = (file.drop off.toNat).take n ∧ p.length = n := by
  unfold readAt at h
  by_cases hoff : off < 0
  · simp [hoff] at h
  · simp only [if_neg hoff] at h
    by_cases hl : ((file.drop off.toNat).take n).length < n
    · rw [if_pos hl] at h
      exact absurd h (by simp)
    · simp only [if_neg hl] at h
      injection h with h
      refine ⟨not_lt.mp hoff, h.symm, ?_⟩
      have h3 := List.length_take_le n (file.drop off.toNat)
      rw [← h]
      omega

theorem readAt_of_le {file : List Nat} {n : Nat} {off : Int} (h0 : 0 ≤ off)
    (h : off.toNat + n ≤ file.length) :
    readAt file n off = some ((file.drop off.toNat).take n) := by
  unfold readAt
  rw [if_neg (not_lt.mpr h0)]
  have : ((file.drop off.toNat).take n).length = n := by
    rw [List.length_take, List.length_drop]
    omega
  simp only [this, lt_irrefl, if_false]

/-- Claim C8. For a block index `id` of the transfer plan, on the frame `0x01` followed by
the little-endian `id`, and when the file read succeeds with the bytes `p`, the Supplier
worker writes `0x02`, the little-endian `id`, `encrypt(p)` and `md5(p)`, in this order,
and goes on with its loop; `p` is the file content at offset `id*blockSize` of length
`N`, with `N = blockSize` except for the last index, where
`N = fileSize - (numBlocks-1)*blockSize`; the reply has `1 + 8 + N + 16` bytes. -/
theorem connect_reply (maxChan : Int) (g0 g : Globals) (md5 : List Nat → List Nat) (file rest p : List Nat)
    (id : Int) (hmd5 : ∀ d, (md5 d).length = 16)
    (hf : 0 < g0.fileSize) (hb : 0 < g0.blockSize)
    (hno : g0.fileSize + g0.blockSize - 1 < half64) (hprep : prepareBlocks maxChan g0 = some g)
    (hid0 : 0 ≤ id) (hid1 : id < g.numBlocks)
    (hread : readAt file (sz g id).toNat (wrap64 (id * g.blockSize)) = some p) :
    (connectIter g md5 file (pReq :: (putUint64 (toUint64 id) ++ rest))).next = Ctl.loop rest ∧
      wire (connectIter g md5 file (pReq :: (putUint64 (toUint64 id) ++ rest))).events
        = pData :: (putUint64 (toUint64 id) ++ (encrypt g.keyb p ++ md5 p)) ∧
      (wire (connectIter g md5 file (pReq :: (putUint64 (toUint64 id) ++ rest))).events).length
        = 1 + 8 + p.length + 16 ∧
      (p.length : Int)
        = (if id = g.numBlocks - 1 then g.fileSize - (g.numBlocks - 1) * g.blockSize
            else g.blockSize) ∧
      p = (file.drop (id * g.blockSize).toNat).take p.length := by
  obtain ⟨_, _, _, hn0, hn1, hlst, hall⟩ := plan_facts hf hb hno hprep
  obtain ⟨hszeq, hsz0, _, hoff0, _, hoff1⟩ := hall id hid0 hid1
  have hh : half64 = 9223372036854775808 := rfl
  have hw : wrap64 (id * g.blockSize) = id * g.blockSize :=
    wrap64_eq_self (by omega) hoff1
  rw [connectIter_serve g md5 file rest p pReq id (by decide) (by omega) (by omega)
    (le_of_lt hsz0) hread]
  obtain ⟨_, hp, hplen⟩ := readAt_eq hread
  have hpl : (p.length : Int) = sz g id := by
    rw [hplen]
    exact Int.toNat_of_nonneg (le_of_lt hsz0)
  refine ⟨rfl, ?_, ?_, ?_, ?_⟩
  · simp [wire]
  · simp [wire, putUint64_length, encrypt_length, hmd5]
    omega
  · rw [hpl, hszeq, hlst]
  · rw [hplen, ← hw]
    exact hp

/-- The reply of the Supplier worker for the last block of the 5-byte file. -/
theorem connect_reply_witness :
    (connectIter demoGlobals sumDigest demoFile (pReq :: (putUint64 (toUint64 2) ++ []))).next
        = Ctl.loop [] ∧
      wire (connectIter demoGlobals sumDigest demoFile
          (pReq :: (putUint64 (toUint64 2) ++ []))).events
        = pData :: (putUint64 (toUint64 2) ++ (encrypt demoGlobals.keyb [50] ++ sumDigest [50])) ∧
      (wire (connectIter demoGlobals sumDigest demoFile
          (pReq :: (putUint64 (toUint64 2) ++ []))).events).length
        = 1 + 8 + [50].length + 16 ∧
      (([50] : List Nat).length : Int)
        = (if (2 : Int) = demoGlobals.numBlocks - 1
            then demoGlobals.fileSize - (demoGlobals.numBlocks - 1) * demoGlobals.blockSize
            else demoGlobals.blockSize) ∧
      [50] = (demoFile.drop ((2 : Int) * demoGlobals.blockSize).toNat).take [50].length :=
  connect_reply chanBound64 demoArgs demoGlobals sumDigest demoFile [] [50] 2 (fun _ => rfl)
    (by decide) (by decide) (by decide) (by decide) (by decide) (by decide) (by decide)

/-- The ways an iteration of `connect` can end. -/
theorem connectIter_cases (g : Globals) (md5 : List Nat → List Nat) (file reader : List Nat) :
    connectIter g md5 file reader = connectFail ∨
      (∃ opbuf, connectIter g md5 file reader =
        ⟨[SendEvent.write opbuf, SendEvent.flush, SendEvent.stop, SendEvent.fClose],
          Ctl.ret⟩) ∨
      connectIter g md5 file reader = ⟨[], Ctl.panic⟩ ∨
      ∃ idbuf e h n r2, connectIter g md5 file reader =
        ⟨[SendEvent.write [pData], SendEvent.write idbuf, SendEvent.write e,
          SendEvent.write h, SendEvent.flush, SendEvent.blockTransfer n], Ctl.loop r2⟩ := by
  unfold connectIter
  rcases h1 : readFull reader 1 with _ | ⟨opbuf, r1⟩
  · exact Or.inl rfl
  · simp only []
    by_cases hs : opbuf.getD 0 0 = pStop
    · rw [if_pos hs]
      exact Or.inr (Or.inl ⟨opbuf, rfl⟩)
    · rw [if_neg hs]
      rcases h2 : readFull r1 8 with _ | ⟨idbuf, r2⟩
      · exact Or.inl rfl
      · simp only []
        by_cases hn : sz g (wrap64 ((leUint64 idbuf : Nat) : Int)) < 0
        · rw [if_pos hn]
          exact Or.inr (Or.inr (Or.inl rfl))
        · rw [if_neg hn]
          rcases h3 : readAt file (sz g (wrap64 ((leUint64 idbuf : Nat) : Int))).toNat
              (wrap64 (wrap64 ((leUint64 idbuf : Nat) : Int) * g.blockSize)) with _ | data
          · exact Or.inl rfl
          · exact Or.inr (Or.inr (Or.inr ⟨_, _, _, _, _, rfl⟩))

/-- The iteration of `connect` on the tag `pStop`. -/
theorem connectIter_stop (g : Globals) (md5 : List Nat → List Nat) (file rest : List Nat) :
    connectIter g md5 file (pStop :: rest) =
      ⟨[SendEvent.write [pStop], SendEvent.flush, SendEvent.stop, SendEvent.fClose],
        Ctl.ret⟩ := by
  unfold connectIter
  rw [readFull_one]
  simp

theorem sendStep_exited (g : Globals) (md5 : List Nat → List Nat) (file : List Nat)
    (s : Supplier) (a : SendAction) (he : s.exited ≠ none) :
    sendStep g md5 file s a = none := by
  have h : s.exited.isSome = true := by
    cases hx : s.exited with
    | none => exact absurd hx he
    | some c => rfl
  cases a <;> simp [sendStep, h]

theorem sendRun_exited (g : Globals) (md5 : List Nat → List Nat) (file : List Nat)
    (s t : Supplier) (as : List SendAction) (he : s.exited ≠ none)
    (h : sendRun g md5 file s as = some t) : as = [] ∧ t = s := by
  cases as with
  | nil =>
    simp only [sendRun, Option.some.injEq] at h
    exact ⟨rfl, h.symm⟩
  | cons a as =>
    simp only [sendRun, sendStep_exited g md5 file s a he, Option.none_bind] at h
    exact absurd h (by simp)

/-- One move of the Supplier process once the stop signal is raised: the signal stays
raised until the process ends, the end of the process closes every connection, no
`connect` goroutine starts to dial, and a selection of `<-tch` by the supervisor uses up
one of the tokens that the slots in use can still give. -/
theorem sendStep_after_stop (g : Globals) (md5 : List Nat → List Nat) (file : List Nat)
    (s t : Supplier) (a : SendAction) (hstop : 0 < s.stop)
    (h : sendStep g md5 file s a = some t) :
    (t.exited = none → 0 < t.stop) ∧ (t.exited ≠ none → t.conns = 0) ∧
      t.dialing ≤ s.dialing ∧
      spawns [a] + (t.tch + t.dialing + t.workers) ≤ s.tch + s.dialing + s.workers := by
  rcases s with ⟨tch, stop, starting, dialing, workers, conns, exited⟩
  cases a with
  | spawn =>
    simp only [sendStep] at h
    split_ifs at h
    injection h with h
    subst h
    simp only [spawns]
    refine ⟨fun _ => hstop, fun hx => ?_, le_rfl, ?_⟩
    · rename_i hc
      simp only [not_or] at hc
      cases exited with
      | none => exact absurd rfl hx
      | some c => exact absurd rfl hc.1
    · rename_i hc
      simp only [not_or] at hc
      omega
  | leave =>
    simp only [sendStep] at h
    split_ifs at h
    injection h with h
    subst h
    simp only [spawns]
    exact ⟨fun hx => absurd hx (by simp), fun _ => trivial, le_rfl, by omega⟩
  | check =>
    simp only [sendStep] at h
    split_ifs at h with h1
    injection h with h
    subst h
    simp only [spawns]
    simp only [not_or] at h1
    refine ⟨fun _ => hstop, fun hx => ?_, le_rfl, by omega⟩
    cases exited with
    | none => exact absurd rfl hx
    | some c => exact absurd rfl h1.1
  | dialFail =>
    simp only [sendStep] at h
    split_ifs at h with h1
    injection h with h
    subst h
    simp only [spawns]
    simp only [not_or] at h1
    refine ⟨fun _ => hstop, fun hx => ?_, by omega, by omega⟩
    cases exited with
    | none => exact absurd rfl hx
    | some c => exact absurd rfl h1.1
  | dialOk =>
    simp only [sendStep] at h
    split_ifs at h with h1
    injection h with h
    subst h
    simp only [spawns]
    simp only [not_or] at h1
    refine ⟨fun _ => hstop, fun hx => ?_, by omega, by omega⟩
    cases exited with
    | none => exact absurd rfl hx
    | some c => exact absurd rfl h1.1
  | serve reader =>
    simp only [sendStep] at h
    split_ifs at h with h1 h2
    simp only [not_or] at h1
    have hex : exited = none := by
      cases exited with
      | none => rfl
      | some c => exact absurd rfl h1.1
    subst hex
    rcases connectIter_cases g md5 file reader with hc | ⟨opbuf, hc⟩ | hc | ⟨i, e, d, n, r, hc⟩
    · simp only [hc, connectFail, List.foldl, applySend, Option.some.injEq] at h
      subst h
      simp only [spawns]
      exact ⟨fun _ => hstop, fun hx => absurd rfl hx, le_rfl, by omega⟩
    · simp only [hc, List.foldl, applySend, Option.some.injEq] at h
      subst h
      simp only [spawns]
      exact ⟨fun _ => by omega, fun hx => absurd rfl hx, le_rfl, by omega⟩
    · simp only [hc, List.foldl, Option.some.injEq] at h
      subst h
      simp only [spawns]
      exact ⟨fun hx => absurd hx (by simp), fun _ => trivial, le_rfl, by omega⟩
    · simp only [hc, List.foldl, applySend, Option.some.injEq] at h
      subst h
      simp only [spawns]
      exact ⟨fun _ => hstop, fun hx => absurd rfl hx, le_rfl, by omega⟩

theorem spawns_cons (a : SendAction) (as : List SendAction) :
    spawns (a :: as) = spawns [a] + spawns as := by
  cases a <;> simp [spawns, Nat.add_comm]

/-- A run of the Supplier process once the stop signal is raised. -/
theorem sendRun_after_stop (g : Globals) (md5 : List Nat → List Nat) (file : List Nat)
    (as : List SendAction) :
    ∀ s t : Supplier, 0 < s.stop → s.exited = none → sendRun g md5 file s as = some t →
      (t.exited = none → 0 < t.stop) ∧ (t.exited ≠ none → t.conns = 0) ∧
        t.dialing ≤ s.dialing ∧
        spawns as + (t.tch + t.dialing + t.workers) ≤ s.tch + s.dialing + s.workers := by
  induction as with
  | nil =>
    intro s t hstop he h
    simp only [sendRun, Option.some.injEq] at h
    subst h
    exact ⟨fun _ => hstop, fun hx => absurd he hx, le_rfl, by simp [spawns]⟩
  | cons a as ih =>
    intro s t hstop he h
    simp only [sendRun] at h
    cases hst : sendStep g md5 file s a with
    | none =>
      rw [hst] at h
      exact absurd h (by simp)
    | some s1 =>
      rw [hst] at h
      simp only [Option.some_bind] at h
      obtain ⟨k1, k2, k3, k4⟩ := sendStep_after_stop g md5 file s s1 a hstop hst
      rw [spawns_cons]
      by_cases hx : s1.exited = none
      · obtain ⟨j1, j2, j3, j4⟩ := ih s1 t (k1 hx) hx h
        exact ⟨j1, j2, by omega, by omega⟩
      · obtain ⟨hnil, hts⟩ := sendRun_exited g md5 file s1 t as hx h
        subst hnil
        subst hts
        exact ⟨fun hy => absurd hy hx, k2, k3, by simp only [spawns]; omega⟩

/-- Claim C9. In every state of the Supplier process with a worker in its loop, when the
tag the worker reads is `pStop`: the worker writes the one byte `pStop` back, raises the
stop signal, closes its file and returns, without releasing its slot to `tch`. The
supervisor can then select `<-stop`, which ends the process with status 0 and so closes
the connection; this is its only move when `tch` is empty, and in every run from there
the signal stays raised until the process ends, every end of the process leaves no
connection open, no `connect` goroutine starts to dial (no reconnect), and the supervisor
selects `<-tch` at most as often as `tch` and the slots in use can give tokens. -/
theorem connect_stop (g : Globals) (md5 : List Nat → List Nat) (file rest : List Nat)
    (s : Supplier) (hw : 0 < s.workers) (he : s.exited = none) (hs : s.stop < 100) :
    connectIter g md5 file (pStop :: rest) =
        ⟨[SendEvent.write [pStop], SendEvent.flush, SendEvent.stop, SendEvent.fClose],
          Ctl.ret⟩ ∧
      wire (connectIter g md5 file (pStop :: rest)).events = [pStop] ∧
      SendEvent.tch ∉ (connectIter g md5 file (pStop :: rest)).events ∧
      sendStep g md5 file s (SendAction.serve (pStop :: rest))
        = some { s with stop := s.stop + 1, workers := s.workers - 1 } ∧
      sendStep g md5 file { s with stop := s.stop + 1, workers := s.workers - 1 }
          SendAction.leave
        = some { s with stop := s.stop + 1, workers := s.workers - 1, exited := some 0,
                        conns := 0 } ∧
      (s.tch = 0 →
        sendStep g md5 file { s with stop := s.stop + 1, workers := s.workers - 1 }
          SendAction.spawn = none) ∧
      ∀ as t,
        sendRun g md5 file { s with stop := s.stop + 1, workers := s.workers - 1 } as
          = some t →
        (t.exited = none → 0 < t.stop ∧
          sendStep g md5 file t SendAction.leave = some { t with exited := some 0, conns := 0 }) ∧
        (t.exited ≠ none → t.conns = 0) ∧
        t.dialing ≤ s.dialing ∧
        spawns as + (t.tch + t.dialing + t.workers) + 1 ≤ s.tch + s.dialing + s.workers := by
  have hc := connectIter_stop g md5 file rest
  rcases s with ⟨tch, stop, starting, dialing, workers, conns, exited⟩
  simp only at hw he hs
  subst he
  refine ⟨hc, ?_, ?_, ?_, ?_, ?_, ?_⟩
  · rw [hc]
    simp [wire]
  · rw [hc]
    simp
  · have hw0 : ¬ workers = 0 := by omega
    have hfull : ¬ 100 ≤ stop := by omega
    simp [sendStep, hc, applySend, hw0, hfull]
  · simp [sendStep]
  · intro ht
    simp only at ht
    simp [sendStep, ht]
  · intro as t hrun
    obtain ⟨k1, k2, k3, k4⟩ := sendRun_after_stop g md5 file as _ t (by simp) rfl hrun
    dsimp only at k3 k4 ⊢
    refine ⟨fun hx => ⟨k1 hx, ?_⟩, k2, k3, by omega⟩
    have hpos := k1 hx
    have hne : ¬ t.stop = 0 := by omega
    simp [sendStep, hx, hne]

/-- The worker of `demoSupplier` reading the tag `pStop`. -/
theorem connect_stop_witness :
    connectIter demoGlobals sumDigest demoFile (pStop :: []) =
        ⟨[SendEvent.write [pStop], SendEvent.flush, SendEvent.stop, SendEvent.fClose],
          Ctl.ret⟩ ∧
      wire (connectIter demoGlobals sumDigest demoFile (pStop :: [])).events = [pStop] ∧
      SendEvent.tch ∉ (connectIter demoGlobals sumDigest demoFile (pStop :: [])).events ∧
      sendStep demoGlobals sumDigest demoFile demoSupplier (SendAction.serve (pStop :: []))
        = some { demoSupplier with
            stop := demoSupplier.stop + 1, workers := demoSupplier.workers - 1 } ∧
      sendStep demoGlobals sumDigest demoFile
          { demoSupplier with
            stop := demoSupplier.stop + 1, workers := demoSupplier.workers - 1 }
          SendAction.leave
        = some { demoSupplier with
            stop := demoSupplier.stop + 1, workers := demoSupplier.workers - 1,
            exited := some 0, conns := 0 } ∧
      (demoSupplier.tch = 0 →
        sendStep demoGlobals sumDigest demoFile
          { demoSupplier with
            stop := demoSupplier.stop + 1, workers := demoSupplier.workers - 1 }
          SendAction.spawn = none) ∧
      ∀ as t,
        sendRun demoGlobals sumDigest demoFile
            { demoSupplier with
              stop := demoSupplier.stop + 1, workers := demoSupplier.workers - 1 } as
          = some t →
        (t.exited = none → 0 < t.stop ∧
          sendStep demoGlobals sumDigest demoFile t SendAction.leave
            = some { t with exited := some 0, conns := 0 }) ∧
        (t.exited ≠ none → t.conns = 0) ∧
        t.dialing ≤ demoSupplier.dialing ∧
        spawns as + (t.tch + t.dialing + t.workers) + 1
          ≤ demoSupplier.tch + demoSupplier.dialing + demoSupplier.workers :=
  connect_stop demoGlobals sumDigest demoFile [] demoSupplier (by decide) (by decide)
    (by decide)

/-- Claim C10. The Supplier worker does not look at the tag of a frame beyond comparing it
with `pStop`: on any other tag `t` it does exactly what it does on `pReq`, reading the
next 8 bytes as the little-endian index and, when the buffer can be made and the file
read succeeds, writing the `pData` reply for that index. -/
theorem connect_any_tag (g : Globals) (md5 : List Nat → List Nat) (file : List Nat)
    (t : Nat) (ht : t ≠ pStop) :
    (∀ rest, connectIter g md5 file (t :: rest) = connectIter g md5 file (pReq :: rest)) ∧
      ∀ (rest p : List Nat) (id : Int), -half64 ≤ id → id < half64 → 0 ≤ sz g id →
        readAt file (sz g id).toNat (wrap64 (id * g.blockSize)) = some p →
        (connectIter g md5 file (t :: (putUint64 (toUint64 id) ++ rest))).next = Ctl.loop rest ∧
          wire (connectIter g md5 file (t :: (putUint64 (toUint64 id) ++ rest))).events
            = pData :: (putUint64 (toUint64 id) ++ (encrypt g.keyb p ++ md5 p)) := by
  have hr : pReq ≠ pStop := by decide
  constructor
  · intro rest
    unfold connectIter
    rw [readFull_one, readFull_one]
    simp only [List.getD_cons_zero, if_neg ht, if_neg hr]
  · intro rest p id h1 h2 hsz hread
    rw [connectIter_serve g md5 file rest p t id ht h1 h2 hsz hread]
    exact ⟨rfl, by simp [wire]⟩

/-- Claim C10 (instance). The tag `7` is served like `pReq`. -/
theorem connect_any_tag_witness :
    (∀ rest, connectIter demoGlobals sumDigest demoFile (7 :: rest)
        = connectIter demoGlobals sumDigest demoFile (pReq :: rest)) ∧
      ∀ (rest p : List Nat) (id : Int), -half64 ≤ id → id < half64 → 0 ≤ sz demoGlobals id →
        readAt demoFile (sz demoGlobals id).toNat (wrap64 (id * demoGlobals.blockSize))
          = some p →
        (connectIter demoGlobals sumDigest demoFile
            (7 :: (putUint64 (toUint64 id) ++ rest))).next = Ctl.loop rest ∧
          wire (connectIter demoGlobals sumDigest demoFile
              (7 :: (putUint64 (toUint64 id) ++ rest))).events
            = pData :: (putUint64 (toUint64 id)
                ++ (encrypt demoGlobals.keyb p ++ sumDigest p)) :=
  connect_any_tag demoGlobals sumDigest demoFile 7 (by decide)

/-! ## Lemmas and theorems: Collector worker -/

theorem readFull_header (t : Nat) (idx rest : List Nat) (hlen : idx.length = 8) :
    readFull (t :: (idx ++ rest)) 9 = some (t :: idx, rest) := by
  have h := readFull_append_of_eq (t :: idx) rest (n := 9) (by simp [hlen])
  simpa using h

/-- The iteration of `handle` on a fully read header. -/
theorem handleIter_header (g : Globals) (md5 : List Nat → List Nat) (id : Int) (t : Nat)
    (idx rest : List Nat) (hlen : idx.length = 8) :
    handleIter g md5 id (t :: (idx ++ rest)) =
      if t ≠ pData ∨ wrap64 ((leUint64 idx : Nat) : Int) ≠ id then
        ⟨handleRequest id, Ctl.exit 4⟩
      else handlePayload g md5 id (wrap64 ((leUint64 idx : Nat) : Int)) rest := by
  unfold handleIter
  rw [readFull_header t idx rest hlen]
  simp only [List.getD_cons_zero, List.drop_succ_cons, List.drop_zero]

/-- The ways the part after the header check can end. -/
theorem handlePayload_cases (g : Globals) (md5 : List Nat → List Nat) (id blkId : Int)
    (r1 : List Nat) :
    handlePayload g md5 id blkId r1 = handleFail id ∨
      handlePayload g md5 id blkId r1 = ⟨handleRequest id, Ctl.panic⟩ ∨
      ∃ data r3, handlePayload g md5 id blkId r1 =
        ⟨handleRequest id ++ [RecvEvent.doneBlocks id data,
          RecvEvent.blockTransfer (sz g blkId)], Ctl.loop r3⟩ := by
  unfold handlePayload
  by_cases hn : sz g blkId < 0
  · rw [if_pos hn]
    exact Or.inr (Or.inl rfl)
  · rw [if_neg hn]
    rcases h1 : readFull r1 (sz g blkId).toNat with _ | ⟨data, r2⟩
    · exact Or.inl rfl
    · simp only []
      rcases h2 : readFull r2 16 with _ | ⟨hbuf, r3⟩
      · exact Or.inl rfl
      · simp only []
        by_cases hh : hbuf ≠ md5 (encrypt g.keyb data)
        · rw [if_pos hh]
          exact Or.inl rfl
        · rw [if_neg hh]
          exact Or.inr (Or.inr ⟨_, _, rfl⟩)

/-- The ways an iteration of `handle` can end. -/
theorem handleIter_cases (g : Globals) (md5 : List Nat → List Nat) (id : Int)
    (reader : List Nat) :
    handleIter g md5 id reader = handleFail id ∨
      handleIter g md5 id reader = ⟨handleRequest id, Ctl.exit 4⟩ ∨
      handleIter g md5 id reader = ⟨handleRequest id, Ctl.panic⟩ ∨
      ∃ data r3 n, handleIter g md5 id reader =
        ⟨handleRequest id ++ [RecvEvent.doneBlocks id data, RecvEvent.blockTransfer n],
          Ctl.loop r3⟩ := by
  unfold handleIter
  rcases h0 : readFull reader 9 with _ | ⟨buf, r1⟩
  · exact Or.inl rfl
  · simp only []
    by_cases hc : buf.getD 0 0 ≠ pData ∨ wrap64 ((leUint64 (buf.drop 1) : Nat) : Int) ≠ id
    · rw [if_pos hc]
      exact Or.inr (Or.inl rfl)
    · rw [if_neg hc]
      rcases handlePayload_cases g md5 id (wrap64 ((leUint64 (buf.drop 1) : Nat) : Int)) r1
        with h | h | ⟨d, r, h⟩
      · exact Or.inl h
      · exact Or.inr (Or.inr (Or.inl h))
      · exact Or.inr (Or.inr (Or.inr ⟨d, r, _, h⟩))

/-- The part after the header check on a payload of the expected size and a digest. -/
theorem handlePayload_full (g : Globals) (md5 : List Nat → List Nat) (id : Int)
    (payload hash rest : List Nat) (hpl : (payload.length : Int) = sz g id)
    (hh : hash.length = 16) :
    handlePayload g md5 id id (payload ++ (hash ++ rest)) =
      if hash ≠ md5 (encrypt g.keyb payload) then handleFail id
      else
        ⟨handleRequest id ++ [RecvEvent.doneBlocks id (encrypt g.keyb payload),
          RecvEvent.blockTransfer (sz g id)], Ctl.loop rest⟩ := by
  have hn : ¬ sz g id < 0 := by omega
  have hl : payload.length = (sz g id).toNat := by omega
  unfold handlePayload
  rw [if_neg hn, readFull_append_of_eq payload _ hl]
  simp only []
  rw [readFull_append_of_eq hash rest hh]

/-- Claim C6. For a requested index `id` and a fully read header of tag `t` and index
bytes `idx`: when `t` is not `pData` or `idx` is not the little-endian `id`, the worker
has sent its request and ends the process with status 4, sending nothing to `blocks` or
`doneBlocks`; when the tag is `pData` and the index is `id`, the process is not ended. -/
theorem handle_fatal (g : Globals) (md5 : List Nat → List Nat) (id : Int) (t : Nat)
    (idx rest : List Nat) (hlen : idx.length = 8) (hb : ∀ x ∈ idx, x < 256)
    (h1 : -half64 ≤ id) (h2 : id < half64) :
    ((t ≠ pData ∨ idx ≠ putUint64 (toUint64 id)) →
        handleIter g md5 id (t :: (idx ++ rest)) = ⟨handleRequest id, Ctl.exit 4⟩) ∧
      ((t = pData ∧ idx = putUint64 (toUint64 id)) →
        ∀ c, (handleIter g md5 id (t :: (idx ++ rest))).next ≠ Ctl.exit c) ∧
      (∀ e ∈ handleRequest id,
        (∀ i, e ≠ RecvEvent.blocks i) ∧ ∀ i d, e ≠ RecvEvent.doneBlocks i d) := by
  have hiff := index_eq_iff hlen hb h1 h2
  refine ⟨?_, ?_, ?_⟩
  · intro h
    rw [handleIter_header g md5 id t idx rest hlen, if_pos]
    rcases h with h | h
    · exact Or.inl h
    · exact Or.inr (fun hc => h (hiff.mp hc))
  · rintro ⟨ht, hi⟩ c
    have hdec := hiff.mpr hi
    rw [handleIter_header g md5 id t idx rest hlen, if_neg (by
      rintro (h | h)
      · exact h ht
      · exact h hdec)]
    rcases handlePayload_cases g md5 id (wrap64 ((leUint64 idx : Nat) : Int)) rest
      with h | h | ⟨d, r, h⟩
    · rw [h]
      simp [handleFail]
    · rw [h]
      simp
    · rw [h]
      simp
  · intro e he
    simp only [handleRequest, List.mem_cons, List.mem_singleton, List.mem_nil_iff,
      or_false] at he
    rcases he with rfl | rfl
    · exact ⟨fun i => by simp, fun i d => by simp⟩
    · exact ⟨fun i => by simp, fun i d => by simp⟩

/-- The header check for the request of index 1: the index bytes of 5 end the process,
the index bytes of 1 with the tag `pData` do not. -/
theorem handle_fatal_witness :
    ((pData ≠ pData ∨ putUint64 5 ≠ putUint64 (toUint64 1)) →
        handleIter demoGlobals sumDigest 1 (pData :: (putUint64 5 ++ [1, 2]))
          = ⟨handleRequest 1, Ctl.exit 4⟩) ∧
      ((pData = pData ∧ putUint64 5 = putUint64 (toUint64 1)) →
        ∀ c, (handleIter demoGlobals sumDigest 1 (pData :: (putUint64 5 ++ [1, 2]))).next
          ≠ Ctl.exit c) ∧
      (∀ e ∈ handleRequest 1,
        (∀ i, e ≠ RecvEvent.blocks i) ∧ ∀ i d, e ≠ RecvEvent.doneBlocks i d) :=
  handle_fatal demoGlobals sumDigest 1 pData (putUint64 5) [1, 2] (by decide)
    (putUint64_bytes 5) (by decide) (by decide)

/-- The iteration of `handle` on a valid header, a payload of the expected size and a
digest. -/
theorem handle_integrity_aux (g : Globals) (md5 : List Nat → List Nat) (id : Int)
    (payload hash rest : List Nat) (h1 : -half64 ≤ id) (h2 : id < half64)
    (hpl : (payload.length : Int) = sz g id) (hh : hash.length = 16) :
    handleIter g md5 id (pData :: (putUint64 (toUint64 id) ++ (payload ++ (hash ++ rest)))) =
      if hash ≠ md5 (encrypt g.keyb payload) then handleFail id
      else
        ⟨handleRequest id ++ [RecvEvent.doneBlocks id (encrypt g.keyb payload),
          RecvEvent.blockTransfer (sz g id)], Ctl.loop rest⟩ := by
  have hdec : wrap64 ((leUint64 (putUint64 (toUint64 id)) : Nat) : Int) = id := by
    rw [leUint64_putUint64 (toUint64_lt id), wrap64_toUint64 h1 h2]
  rw [handleIter_header g md5 id pData _ _ (putUint64_length _), hdec,
    if_neg (by simp), handlePayload_full g md5 id payload hash rest hpl hh]

/-- Claim C7. For a response with a valid header whose payload and 16-byte digest were
read in full, the worker sends `(id, encrypt(payload))` to `doneBlocks` exactly when
`md5(encrypt(payload))` is the digest received; when the digests differ it sends nothing
to `doneBlocks`, sends `id` back to `blocks`, closes the connection, takes a token from
`ths` and returns, having written one request only. -/
theorem handle_integrity (g : Globals) (md5 : List Nat → List Nat) (id : Int)
    (payload hash rest : List Nat) (h1 : -half64 ≤ id) (h2 : id < half64)
    (hpl : (payload.length : Int) = sz g id) (hh : hash.length = 16) :
    (md5 (encrypt g.keyb payload) = hash →
        handleIter g md5 id (pData :: (putUint64 (toUint64 id) ++ (payload ++ (hash ++ rest))))
          = ⟨handleRequest id ++ [RecvEvent.doneBlocks id (encrypt g.keyb payload),
              RecvEvent.blockTransfer (sz g id)], Ctl.loop rest⟩) ∧
      (md5 (encrypt g.keyb payload) ≠ hash →
        handleIter g md5 id (pData :: (putUint64 (toUint64 id) ++ (payload ++ (hash ++ rest))))
          = ⟨handleRequest id ++
              [RecvEvent.blocks id, RecvEvent.connClose, RecvEvent.thsRecv], Ctl.ret⟩) ∧
      (RecvEvent.doneBlocks id (encrypt g.keyb payload) ∈
          (handleIter g md5 id
            (pData :: (putUint64 (toUint64 id) ++ (payload ++ (hash ++ rest))))).events
        ↔ md5 (encrypt g.keyb payload) = hash) ∧
      (md5 (encrypt g.keyb payload) ≠ hash →
        ∀ i d, RecvEvent.doneBlocks i d ∉
          (handleIter g md5 id
            (pData :: (putUint64 (toUint64 id) ++ (payload ++ (hash ++ rest))))).events) ∧
      sent (handleIter g md5 id
          (pData :: (putUint64 (toUint64 id) ++ (payload ++ (hash ++ rest))))).events
        = pReq :: putUint64 (toUint64 id) := by
  rw [handle_integrity_aux g md5 id payload hash rest h1 h2 hpl hh]
  by_cases he : md5 (encrypt g.keyb payload) = hash
  · have hne : ¬ hash ≠ md5 (encrypt g.keyb payload) := fun h => h he.symm
    rw [if_neg hne]
    refine ⟨fun _ => rfl, fun h => absurd he h, ?_, fun h => absurd he h, ?_⟩
    · simp [he]
    · simp [handleRequest, sent]
  · have hne : hash ≠ md5 (encrypt g.keyb payload) := fun h => he h.symm
    rw [if_pos hne]
    refine ⟨fun h => absurd h he, fun _ => rfl, ?_, fun _ i d => ?_, ?_⟩
    · simp [handleFail, handleRequest, he]
    · simp [handleFail, handleRequest]
    · simp [handleFail, handleRequest, sent]

/-- The integrity check on the last block of the 5-byte file with a wrong digest. -/
theorem handle_integrity_witness :
    (sumDigest (encrypt demoGlobals.keyb [9]) = sumDigest [] →
        handleIter demoGlobals sumDigest 2
            (pData :: (putUint64 (toUint64 2) ++ ([9] ++ (sumDigest [] ++ []))))
          = ⟨handleRequest 2 ++ [RecvEvent.doneBlocks 2 (encrypt demoGlobals.keyb [9]),
              RecvEvent.blockTransfer (sz demoGlobals 2)], Ctl.loop []⟩) ∧
      (sumDigest (encrypt demoGlobals.keyb [9]) ≠ sumDigest [] →
        handleIter demoGlobals sumDigest 2
            (pData :: (putUint64 (toUint64 2) ++ ([9] ++ (sumDigest [] ++ []))))
          = ⟨handleRequest 2 ++
              [RecvEvent.blocks 2, RecvEvent.connClose, RecvEvent.thsRecv], Ctl.ret⟩) ∧
      (RecvEvent.doneBlocks 2 (encrypt demoGlobals.keyb [9]) ∈
          (handleIter demoGlobals sumDigest 2
            (pData :: (putUint64 (toUint64 2) ++ ([9] ++ (sumDigest [] ++ []))))).events
        ↔ sumDigest (encrypt demoGlobals.keyb [9]) = sumDigest []) ∧
      (sumDigest (encrypt demoGlobals.keyb [9]) ≠ sumDigest [] →
        ∀ i d, RecvEvent.doneBlocks i d ∉
          (handleIter demoGlobals sumDigest 2
            (pData :: (putUint64 (toUint64 2) ++ ([9] ++ (sumDigest [] ++ []))))).events) ∧
      sent (handleIter demoGlobals sumDigest 2
          (pData :: (putUint64 (toUint64 2) ++ ([9] ++ (sumDigest [] ++ []))))).events
        = pReq :: putUint64 (toUint64 2) :=
  handle_integrity demoGlobals sumDigest 2 [9] (sumDigest []) [] (by decide) (by decide)
    (by decide) (by decide)

/-! ## Lemmas and theorems: a block from the source file to the destination file -/

theorem writeAt_read (f data : List Nat) {off : Int} (h0 : 0 ≤ off) (hd : data ≠ []) :
    writeAt f data off = some ((f ++ List.replicate (off.toNat - f.length) 0).take off.toNat
        ++ data ++ f.drop (off.toNat + data.length)) ∧
      (((f ++ List.replicate (off.toNat - f.length) 0).take off.toNat
        ++ data ++ f.drop (off.toNat + data.length)).drop off.toNat).take data.length = data := by
  constructor
  · unfold writeAt
    rw [if_neg (not_lt.mpr h0), if_neg hd]
  · have hl : ((f ++ List.replicate (off.toNat - f.length) 0).take off.toNat).length
        = off.toNat := by
      rw [List.length_take, List.length_append, List.length_replicate]
      omega
    rw [List.append_assoc, List.drop_left' hl]
    exact List.take_left' rfl

theorem writeAt_length (f data : List Nat) (o : Nat) (h : o + data.length ≤ f.length) :
    ((f ++ List.replicate (o - f.length) 0).take o ++ data ++ f.drop (o + data.length)).length
      = f.length := by
  simp only [List.length_append, List.length_take, List.length_replicate, List.length_drop]
  omega

/-- Claim C3. For a source file of `fileSize > 0` bytes, `blockSize > 0` and an index `id`
of the plan: the Collector worker requests `id` with the frame `0x01` and the
little-endian `id`; on the bytes the Supplier worker writes in reply, its header check
and its digest check pass and it sends `(id, d)` to `doneBlocks`, `d` being the source
bytes `[id*blockSize, id*blockSize + sz(id))`; the flusher writes `d` at offset
`id*blockSize`, after which the destination file has these bytes in that range. -/
theorem transfer_block (maxChan : Int) (g0 g : Globals) (md5 : List Nat → List Nat)
    (src dst more rest : List Nat) (id : Int) (hmd5 : ∀ d, (md5 d).length = 16)
    (hsrc : (src.length : Int) = g0.fileSize)
    (hf : 0 < g0.fileSize) (hb : 0 < g0.blockSize)
    (hno : g0.fileSize + g0.blockSize - 1 < half64) (hprep : prepareBlocks maxChan g0 = some g)
    (hid0 : 0 ≤ id) (hid1 : id < g.numBlocks) :
    ∃ d dst1,
      d = (src.drop (id * g.blockSize).toNat).take (sz g id).toNat ∧
      (d.length : Int) = sz g id ∧
      sent (handleRequest id) = pReq :: putUint64 (toUint64 id) ∧
      (connectIter g md5 src (sent (handleRequest id) ++ more)).next = Ctl.loop more ∧
      handleIter g md5 id
          (wire (connectIter g md5 src (sent (handleRequest id) ++ more)).events ++ rest)
        = ⟨handleRequest id ++
            [RecvEvent.doneBlocks id d, RecvEvent.blockTransfer (sz g id)], Ctl.loop rest⟩ ∧
      (flusherStep g { Collector.init dst with
          pc := FlusherPc.write 0, doneBlocks := [(id, d)] }).map Collector.file
        = some dst1 ∧
      writeAt dst d (id * g.blockSize) = some dst1 ∧
      (dst.length = src.length → dst1.length = dst.length) ∧
      (dst1.drop (id * g.blockSize).toNat).take (sz g id).toNat
        = (src.drop (id * g.blockSize).toNat).take (sz g id).toNat := by
  obtain ⟨_, hfs, _, hn0, hn1, hlst, hall⟩ := plan_facts hf hb hno hprep
  obtain ⟨_, hsz0, _, hoff0, hend, hoff1⟩ := hall id hid0 hid1
  have hh : half64 = 9223372036854775808 := rfl
  have hw : wrap64 (id * g.blockSize) = id * g.blockSize :=
    wrap64_eq_self (by omega) hoff1
  have hfit : (id * g.blockSize).toNat + (sz g id).toNat ≤ src.length := by omega
  have hread : readAt src (sz g id).toNat (wrap64 (id * g.blockSize))
      = some ((src.drop (id * g.blockSize).toNat).take (sz g id).toNat) := by
    rw [hw]
    exact readAt_of_le hoff0 hfit
  generalize hd : (src.drop (id * g.blockSize).toNat).take (sz g id).toNat = d at hread
  have hdl : d.length = (sz g id).toNat := by
    rw [← hd, List.length_take, List.length_drop]
    omega
  have hdi : (d.length : Int) = sz g id := by omega
  have hreq : sent (handleRequest id) = pReq :: putUint64 (toUint64 id) := by
    simp [handleRequest, sent]
  have hdne : d ≠ [] := List.ne_nil_of_length_pos (by omega)
  obtain ⟨hwr, hrd⟩ := writeAt_read dst d hoff0 hdne
  refine ⟨d, _, rfl, hdi, hreq, ?_, ?_, ?_, hwr, ?_, ?_⟩
  · rw [hreq, List.cons_append,
      connectIter_serve g md5 src more d pReq id (by decide) (by omega) (by omega)
        (le_of_lt hsz0) hread]
  · rw [hreq, List.cons_append,
      connectIter_serve g md5 src more d pReq id (by decide) (by omega) (by omega)
        (le_of_lt hsz0) hread]
    have hwire : wire [SendEvent.write [pData], SendEvent.write (putUint64 (toUint64 id)),
          SendEvent.write (encrypt g.keyb d), SendEvent.write (md5 d), SendEvent.flush,
          SendEvent.blockTransfer (sz g id)] ++ rest
        = pData :: (putUint64 (toUint64 id) ++ (encrypt g.keyb d ++ (md5 d ++ rest))) := by
      simp [wire]
    rw [hwire]
    have hint := (handle_integrity_aux g md5 id (encrypt g.keyb d) (md5 d) rest
      (by omega) (by omega) (by rw [encrypt_length]; exact hdi) (hmd5 d))
    rw [hint, encrypt_twice, if_neg (by simp)]
  · have hlt : ((0 : Nat) : Int) < g.numBlocks := by
      have : ((0 : Nat) : Int) = 0 := rfl
      omega
    simp only [flusherStep, Collector.init, if_pos hlt, hw, hwr, Option.map_some',
      Option.getD_some]
  · intro hdst
    rw [writeAt_length dst d _ (by omega)]
  · rw [← hdl]
    exact hrd

/-- The transfer of the last block of the 5-byte file into a preallocated file. -/
theorem transfer_block_witness :
    ∃ d dst1,
      d = (demoFile.drop ((2 : Int) * demoGlobals.blockSize).toNat).take
        (sz demoGlobals 2).toNat ∧
      (d.length : Int) = sz demoGlobals 2 ∧
      sent (handleRequest 2) = pReq :: putUint64 (toUint64 2) ∧
      (connectIter demoGlobals sumDigest demoFile (sent (handleRequest 2) ++ [])).next
        = Ctl.loop [] ∧
      handleIter demoGlobals sumDigest 2
          (wire (connectIter demoGlobals sumDigest demoFile
            (sent (handleRequest 2) ++ [])).events ++ [])
        = ⟨handleRequest 2 ++
            [RecvEvent.doneBlocks 2 d, RecvEvent.blockTransfer (sz demoGlobals 2)],
            Ctl.loop []⟩ ∧
      (flusherStep demoGlobals { Collector.init [0, 0, 0, 0, 0] with
          pc := FlusherPc.write 0, doneBlocks := [(2, d)] }).map Collector.file
        = some dst1 ∧
      writeAt [0, 0, 0, 0, 0] d ((2 : Int) * demoGlobals.blockSize) = some dst1 ∧
      (([0, 0, 0, 0, 0] : List Nat).length = demoFile.length →
        dst1.length = ([0, 0, 0, 0, 0] : List Nat).length) ∧
      (dst1.drop ((2 : Int) * demoGlobals.blockSize).toNat).take (sz demoGlobals 2).toNat
        = (demoFile.drop ((2 : Int) * demoGlobals.blockSize).toNat).take
          (sz demoGlobals 2).toNat :=
  transfer_block chanBound64 demoArgs demoGlobals sumDigest demoFile [0, 0, 0, 0, 0] [] [] 2
    (fun _ => rfl) (by decide) (by decide) (by decide) (by decide) (by decide) (by decide)
    (by decide)

/-! ## Lemmas and theorems: Collector process -/

theorem count_range_map (n : Nat) (x : Int) :
    ((List.range n).map Int.ofNat).count x = if 0 ≤ x ∧ x < (n : Int) then 1 else 0 := by
  induction n with
  | zero =>
    have : ¬ (0 ≤ x ∧ x < ((0 : Nat) : Int)) := by omega
    rw [if_neg this]
    rfl
  | succ n ih =>
    have hc : List.count x (List.map Int.ofNat [n]) = if (n : Int) = x then 1 else 0 := by
      simp [List.count_cons]
    rw [List.range_succ, List.map_append, List.count_append, ih, hc]
    split_ifs <;> omega

theorem prepareBlocks_nonneg {maxChan : Int} {g0 g : Globals}
    (h : prepareBlocks maxChan g0 = some g) : 0 ≤ g.numBlocks := by
  unfold prepareBlocks at h
  by_cases hb : g0.blockSize = 0
  · rw [if_pos hb] at h
    exact absurd h (by simp)
  · rw [if_neg hb] at h
    by_cases hn : (assignBlocks g0).numBlocks < 0 ∨ maxChan < (assignBlocks g0).numBlocks
    · rw [if_pos hn] at h
      exact absurd h (by simp)
    · rw [if_neg hn] at h
      injection h with h
      rw [← h]
      by_contra hc
      exact hn (Or.inl (not_le.mp hc))

theorem inv_init (g : Globals) (hn : 0 ≤ g.numBlocks) (file : List Nat) :
    Inv g (Collector.init file) := by
  refine ⟨rfl, fun x => ?_, ?_, rfl, ?_⟩
  · simp [Collector.init, Collector.enqueued]
  · simpa [Collector.init, Collector.enqueued] using hn
  · intro w hw
    simp [Collector.init] at hw

theorem count_snoc (l : List Int) (a x : Int) :
    (l ++ [a]).count x = l.count x + if a = x then 1 else 0 := by
  simp [List.count_append, List.count_cons]

theorem count_cons_int (l : List Int) (a x : Int) :
    (a :: l).count x = l.count x + if a = x then 1 else 0 := by
  simp [List.count_cons]

theorem inv_flusher (g : Globals) (s s1 : Collector) (hi : Inv g s)
    (hs : flusherStep g s = some s1) : Inv g s1 := by
  rcases s with ⟨pc, blocks, done, ths, stop, stopped, idle, held, writes, file, exited⟩
  obtain ⟨hL, hC, hE, hP, hO⟩ := hi
  cases pc with
  | enqueue i =>
    simp only [Collector.enqueued] at hL hC hE hP
    by_cases h : (i : Int) < g.numBlocks
    · simp only [flusherStep, if_pos h, Option.some.injEq] at hs
      subst hs
      refine ⟨?_, fun x => ?_, ?_, hP, hO⟩
      · simp only [Collector.enqueued, List.length_append, List.length_singleton]
        omega
      · have := hC x
        simp only [Collector.enqueued, count_snoc, count_range_map] at this ⊢
        split_ifs at this ⊢ <;> omega
      · simp only [Collector.enqueued]
        omega
    · simp only [flusherStep, if_neg h, Option.some.injEq] at hs
      subst hs
      have hi2 : g.numBlocks.toNat = i := by omega
      refine ⟨?_, fun x => ?_, ?_, ?_, hO⟩
      · simp only [Collector.enqueued, hi2]
        exact hL
      · simp only [Collector.enqueued, hi2]
        exact hC x
      · simp only [Collector.enqueued]
        omega
      · refine ⟨?_, by omega⟩
        rw [hP]
        rfl
  | write i =>
    simp only [Collector.enqueued] at hL hC hE hP
    by_cases h : (i : Int) < g.numBlocks
    · cases done with
      | nil =>
        simp only [flusherStep, if_pos h] at hs
        exact absurd hs (by simp)
      | cons block rest =>
        simp only [flusherStep, if_pos h, Option.some.injEq] at hs
        subst hs
        refine ⟨?_, fun x => ?_, hE, ?_, ?_⟩
        · simp only [Collector.enqueued, List.length_append, List.length_cons,
            List.length_nil] at hL ⊢
          omega
        · have := hC x
          simp only [Collector.enqueued, List.map_cons, List.map_append, List.map_nil,
            count_snoc, count_cons_int] at this ⊢
          omega
        · refine ⟨?_, by omega⟩
          simp only [List.length_append, List.length_cons, List.length_nil]
          omega
        · intro w hw
          rcases List.mem_append.mp hw with hw | hw
          · exact hO w hw
          · rw [List.mem_singleton.mp hw]
    · simp only [flusherStep, if_neg h, Option.some.injEq] at hs
      subst hs
      refine ⟨hL, hC, hE, ?_, hO⟩
      show ((writes.length : Nat) : Int) = g.numBlocks
      omega
  | drain cnt =>
    simp only [flusherStep] at hs
    split_ifs at hs
    · injection hs with hs
      subst hs
      exact ⟨hL, hC, hE, hP, hO⟩
    · injection hs with hs
      subst hs
      exact ⟨hL, hC, hE, hP, hO⟩
  | await cnt i =>
    simp only [flusherStep] at hs
    split_ifs at hs
    · injection hs with hs
      subst hs
      exact ⟨hL, hC, hE, hP, hO⟩
    · injection hs with hs
      subst hs
      exact ⟨hL, hC, hE, hP, hO⟩
  | finished =>
    simp only [flusherStep] at hs
    exact absurd hs (by simp)

theorem count_erase_int (l : List Int) (a x : Int) (h : a ∈ l) :
    (l.erase a).count x + (if a = x then 1 else 0) = l.count x := by
  by_cases hax : a = x
  · subst hax
    have h1 := List.count_pos_iff.mpr h
    rw [List.count_erase_self, if_pos rfl]
    omega
  · rw [List.count_erase_of_ne (fun hc => hax hc.symm), if_neg hax]
    rfl

theorem foldl_handleFail (s : Collector) (id : Int) :
    (handleFail id).events.foldl applyRecv s
      = { s with blocks := s.blocks ++ [id], ths := s.ths - 1 } := by
  simp [handleFail, handleRequest, applyRecv]

theorem foldl_handleRequest (s : Collector) (id : Int) :
    (handleRequest id).foldl applyRecv s = s := by
  simp [handleRequest, applyRecv]

theorem foldl_deliver (s : Collector) (id n : Int) (data : List Nat) :
    (handleRequest id ++ [RecvEvent.doneBlocks id data, RecvEvent.blockTransfer n]).foldl
        applyRecv s
      = { s with doneBlocks := s.doneBlocks ++ [(id, data)] } := by
  simp [handleRequest, applyRecv]

/-- The state after the iteration of the worker that holds `id`. -/
theorem step_respond (g : Globals) (md5 : List Nat → List Nat) (s s1 : Collector) (id : Int)
    (reader : List Nat) (hs : step g md5 s (Action.respond id reader) = some s1) :
    id ∈ s.held ∧
      ((handleIter g md5 id reader = handleFail id ∧
          s1 = { s with blocks := s.blocks ++ [id], ths := s.ths - 1,
                        held := s.held.erase id }) ∨
        (∃ code, (handleIter g md5 id reader).next = Ctl.exit code ∧
          s1 = { s with exited := some code }) ∨
        ((handleIter g md5 id reader).next = Ctl.panic ∧ s1 = { s with exited := some 2 }) ∨
        ∃ data r3 n, handleIter g md5 id reader =
            ⟨handleRequest id ++ [RecvEvent.doneBlocks id data, RecvEvent.blockTransfer n],
              Ctl.loop r3⟩ ∧
          s1 = { s with doneBlocks := s.doneBlocks ++ [(id, data)],
                        held := s.held.erase id, idle := s.idle + 1 }) := by
  simp only [step] at hs
  by_cases hg : s.exited.isSome ∨ id ∉ s.held
  · rw [if_pos hg] at hs
    exact absurd hs (by simp)
  · rw [if_neg hg] at hs
    have hmem : id ∈ s.held := by
      by_contra hc
      exact hg (Or.inr hc)
    refine ⟨hmem, ?_⟩
    rcases handleIter_cases g md5 id reader with h | h | h | ⟨data, r3, n, h⟩
    · left
      refine ⟨h, ?_⟩
      simp only [h, foldl_handleFail] at hs
      simp only [handleFail, Option.some.injEq] at hs
      exact hs.symm
    · right; left
      refine ⟨4, by rw [h], ?_⟩
      simp only [h, foldl_handleRequest, Option.some.injEq] at hs
      exact hs.symm
    · right; right; left
      refine ⟨by rw [h], ?_⟩
      simp only [h, foldl_handleRequest, Option.some.injEq] at hs
      exact hs.symm
    · right; right; right
      refine ⟨data, r3, n, h, ?_⟩
      simp only [h, foldl_deliver, Option.some.injEq] at hs
      exact hs.symm

theorem inv_step (g : Globals) (md5 : List Nat → List Nat) (s s1 : Collector) (a : Action)
    (hi : Inv g s) (hs : step g md5 s a = some s1) : Inv g s1 := by
  cases a with
  | flusher =>
    simp only [step] at hs
    by_cases he : s.exited.isSome
    · rw [if_pos he] at hs
      exact absurd hs (by simp)
    · rw [if_neg he] at hs
      exact inv_flusher g s s1 hi hs
  | accept =>
    simp only [step] at hs
    split_ifs at hs
    injection hs with hs
    subst hs
    exact hi
  | claim =>
    rcases s with ⟨pc, blocks, done, ths, stop, stopped, idle, held, writes, file, exited⟩
    simp only [step] at hs
    split_ifs at hs
    cases blocks with
    | nil => exact absurd hs (by simp)
    | cons blockId rest =>
      simp only [Option.some.injEq] at hs
      subst hs
      obtain ⟨hL, hC, hE, hP, hO⟩ := hi
      refine ⟨?_, fun x => ?_, hE, hP, hO⟩
      · simp only [Collector.enqueued, List.length_cons] at hL ⊢
        omega
      · have := hC x
        simp only [Collector.enqueued, count_cons_int] at this ⊢
        omega
  | workerStop =>
    simp only [step] at hs
    split_ifs at hs
    injection hs with hs
    subst hs
    simpa [handleStop, applyRecv, Inv, Collector.enqueued] using hi
  | respond id reader =>
    obtain ⟨hmem, hcase⟩ := step_respond g md5 s s1 id reader hs
    rcases s with ⟨pc, blocks, done, ths, stop, stopped, idle, held, writes, file, exited⟩
    obtain ⟨hL, hC, hE, hP, hO⟩ := hi
    have hlen := List.length_erase_of_mem hmem
    have hpos : 0 < held.length := List.length_pos_of_mem hmem
    rcases hcase with ⟨_, h⟩ | ⟨code, _, h⟩ | ⟨_, h⟩ | ⟨data, r3, n, _, h⟩
    · subst h
      refine ⟨?_, fun x => ?_, hE, hP, hO⟩
      · simp only [Collector.enqueued, List.length_append, List.length_cons,
          List.length_nil] at hL hlen ⊢
        omega
      · have := hC x
        have he := count_erase_int held id x hmem
        simp only [Collector.enqueued, count_snoc] at this he ⊢
        omega
    · subst h
      exact ⟨hL, hC, hE, hP, hO⟩
    · subst h
      exact ⟨hL, hC, hE, hP, hO⟩
    · subst h
      refine ⟨?_, fun x => ?_, hE, hP, hO⟩
      · simp only [Collector.enqueued, List.length_append, List.length_cons,
          List.length_nil] at hL hlen ⊢
        omega
      · have := hC x
        have he := count_erase_int held id x hmem
        simp only [Collector.enqueued, List.map_append, List.map_cons, List.map_nil,
          count_snoc] at this he ⊢
        omega
  | mainExit =>
    simp only [step] at hs
    split_ifs at hs
    injection hs with hs
    subst hs
    exact hi

theorem inv_run (g : Globals) (md5 : List Nat → List Nat) (as : List Action) :
    ∀ s s1 : Collector, Inv g s → run g md5 s as = some s1 → Inv g s1 := by
  induction as with
  | nil =>
    intro s s1 hi hr
    simp only [run, Option.some.injEq] at hr
    subst hr
    exact hi
  | cons a as ih =>
    intro s s1 hi hr
    simp only [run] at hr
    cases hst : step g md5 s a with
    | none =>
      rw [hst] at hr
      exact absurd hr (by simp)
    | some s2 =>
      rw [hst] at hr
      exact ih s2 s1 (inv_step g md5 s s2 a hi hst) hr

theorem inv_reachable (g : Globals) (md5 : List Nat → List Nat) (s : Collector)
    (hn : 0 ≤ g.numBlocks) (hr : Reachable g md5 s) : Inv g s := by
  obtain ⟨file, as, h⟩ := hr
  exact inv_run g md5 as _ s (inv_init g hn file) h

/-- Claim C4 (as amended). In every reachable state of the Collector, the indices in
flight, pending and completed are together as many as the flusher has put into `blocks`
so far; this number is at most `numBlocks`, and it is `numBlocks` in every state in which
the flusher has left its first loop. Every error exit of a worker that holds an index
(the exits that return) sends the index back to `blocks`. -/
theorem queue_conservation (maxChan : Int) (g0 g : Globals) (md5 : List Nat → List Nat) (s : Collector)
    (hprep : prepareBlocks maxChan g0 = some g) (hr : Reachable g md5 s) :
    s.inFlight + s.pending + s.completed = s.enqueued g ∧
      (s.enqueued g : Int) ≤ g.numBlocks ∧
      ((∀ i, s.pc ≠ FlusherPc.enqueue i) →
        ((s.inFlight + s.pending + s.completed : Nat) : Int) = g.numBlocks) ∧
      (∀ id reader, (handleIter g md5 id reader).next = Ctl.ret →
        RecvEvent.blocks id ∈ (handleIter g md5 id reader).events) ∧
      (∀ id reader s1, step g md5 s (Action.respond id reader) = some s1 →
        (handleIter g md5 id reader).next = Ctl.ret →
        id ∈ s.held ∧ s1.blocks = s.blocks ++ [id] ∧ s1.held = s.held.erase id ∧
          s1.doneBlocks = s.doneBlocks) := by
  have hn := prepareBlocks_nonneg hprep
  obtain ⟨hL, _, hE, _, _⟩ := inv_reachable g md5 s hn hr
  have hsum : s.inFlight + s.pending + s.completed = s.enqueued g := by
    simp only [Collector.inFlight, Collector.pending, Collector.completed]
    omega
  refine ⟨hsum, hE, ?_, ?_, ?_⟩
  · intro hpc
    rw [hsum]
    cases hp : s.pc with
    | enqueue i => exact absurd hp (hpc i)
    | write i => simp only [Collector.enqueued, hp]; omega
    | drain c => simp only [Collector.enqueued, hp]; omega
    | await c i => simp only [Collector.enqueued, hp]; omega
    | finished => simp only [Collector.enqueued, hp]; omega
  · intro id reader hret
    rcases handleIter_cases g md5 id reader with h | h | h | ⟨d, r, n, h⟩
    · rw [h]
      simp [handleFail]
    · rw [h] at hret
      exact absurd hret (by simp)
    · rw [h] at hret
      exact absurd hret (by simp)
    · rw [h] at hret
      exact absurd hret (by simp)
  · intro id reader s1 hs hret
    obtain ⟨hmem, hcase⟩ := step_respond g md5 s s1 id reader hs
    refine ⟨hmem, ?_⟩
    rcases hcase with ⟨_, h⟩ | ⟨code, hx, _⟩ | ⟨hx, _⟩ | ⟨d, r, n, hx, _⟩
    · subst h
      exact ⟨rfl, rfl, rfl⟩
    · rw [hx] at hret
      exact absurd hret (by simp)
    · rw [hx] at hret
      exact absurd hret (by simp)
    · rw [hx] at hret
      exact absurd hret (by simp)

/-- The conservation law in the state `demoClaimed`. -/
theorem queue_conservation_witness :
    demoClaimed.inFlight + demoClaimed.pending + demoClaimed.completed
        = demoClaimed.enqueued demoGlobals ∧
      (demoClaimed.enqueued demoGlobals : Int) ≤ demoGlobals.numBlocks ∧
      ((∀ i, demoClaimed.pc ≠ FlusherPc.enqueue i) →
        ((demoClaimed.inFlight + demoClaimed.pending + demoClaimed.completed : Nat) : Int)
          = demoGlobals.numBlocks) ∧
      (∀ id reader, (handleIter demoGlobals sumDigest id reader).next = Ctl.ret →
        RecvEvent.blocks id ∈ (handleIter demoGlobals sumDigest id reader).events) ∧
      (∀ id reader s1,
        step demoGlobals sumDigest demoClaimed (Action.respond id reader) = some s1 →
        (handleIter demoGlobals sumDigest id reader).next = Ctl.ret →
        id ∈ demoClaimed.held ∧ s1.blocks = demoClaimed.blocks ++ [id] ∧
          s1.held = demoClaimed.held.erase id ∧ s1.doneBlocks = demoClaimed.doneBlocks) :=
  queue_conservation chanBound64 demoArgs demoGlobals sumDigest demoClaimed (by decide)
    ⟨[0, 0, 0, 0, 0], [Action.flusher, Action.accept, Action.claim], by decide⟩

/-- Claim C4 (as stated). The sum of the three counts is not `numBlocks` at all times: for
the 5-byte file with 3 blocks it is 0 in the initial state and 1 in the state
`demoClaimed`, both reachable. -/
theorem queue_conservation_counterexample :
    prepareBlocks chanBound64 demoArgs = some demoGlobals ∧
      Reachable demoGlobals sumDigest (Collector.init [0, 0, 0, 0, 0]) ∧
      (((Collector.init [0, 0, 0, 0, 0]).inFlight + (Collector.init [0, 0, 0, 0, 0]).pending
        + (Collector.init [0, 0, 0, 0, 0]).completed : Nat) : Int) ≠ demoGlobals.numBlocks ∧
      Reachable demoGlobals sumDigest demoClaimed ∧
      ((demoClaimed.inFlight + demoClaimed.pending + demoClaimed.completed : Nat) : Int)
        ≠ demoGlobals.numBlocks :=
  ⟨by decide, ⟨[0, 0, 0, 0, 0], [], rfl⟩, by decide,
    ⟨[0, 0, 0, 0, 0], [Action.flusher, Action.accept, Action.claim], by decide⟩, by decide⟩

/-- Claim C5. In every reachable state of the Collector in which the flusher has closed
the destination file, the flusher has received and written `numBlocks` blocks, nothing
is pending, in flight or waiting in `doneBlocks`, and every index of `[0, numBlocks)` was
written exactly once, at the offset `id*blockSize` computed in 64 bits (the product
itself for a plan without overflow); the file is not closed in a state with fewer than
`numBlocks` completed blocks. -/
theorem closed_complete (maxChan : Int) (g0 g : Globals) (md5 : List Nat → List Nat) (s : Collector)
    (hprep : prepareBlocks maxChan g0 = some g) (hr : Reachable g md5 s) :
    (s.pc.closed = true →
        (s.writes.length : Int) = g.numBlocks ∧ (s.completed : Int) = g.numBlocks ∧
        s.doneBlocks = [] ∧ s.held = [] ∧ s.blocks = [] ∧
        (∀ idx : Int, 0 ≤ idx → idx < g.numBlocks →
          (s.writes.map WriteCall.id).count idx = 1) ∧
        (∀ w ∈ s.writes, 0 ≤ w.id ∧ w.id < g.numBlocks ∧
          w.off = wrap64 (w.id * g.blockSize) ∧
          (0 < g0.fileSize → 0 < g0.blockSize → g0.fileSize + g0.blockSize - 1 < half64 →
            w.off = w.id * g.blockSize))) ∧
      ((s.completed : Int) < g.numBlocks → s.pc.closed = false) := by
  have hn := prepareBlocks_nonneg hprep
  obtain ⟨hL, hC, hE, hP, hO⟩ := inv_reachable g md5 s hn hr
  have main : s.pc.closed = true →
      (s.writes.length : Int) = g.numBlocks ∧ (s.completed : Int) = g.numBlocks ∧
        s.doneBlocks = [] ∧ s.held = [] ∧ s.blocks = [] ∧
        (∀ idx : Int, 0 ≤ idx → idx < g.numBlocks →
          (s.writes.map WriteCall.id).count idx = 1) ∧
        (∀ w ∈ s.writes, 0 ≤ w.id ∧ w.id < g.numBlocks ∧
          w.off = wrap64 (w.id * g.blockSize) ∧
          (0 < g0.fileSize → 0 < g0.blockSize → g0.fileSize + g0.blockSize - 1 < half64 →
            w.off = w.id * g.blockSize)) := by
    intro hc
    have hw : (s.writes.length : Int) = g.numBlocks ∧ s.enqueued g = g.numBlocks.toNat := by
      cases hp : s.pc with
      | enqueue i => rw [hp] at hc; exact absurd hc (by simp [FlusherPc.closed])
      | write i => rw [hp] at hc; exact absurd hc (by simp [FlusherPc.closed])
      | drain c => rw [hp] at hP; exact ⟨hP, by simp only [Collector.enqueued, hp]⟩
      | await c i => rw [hp] at hP; exact ⟨hP, by simp only [Collector.enqueued, hp]⟩
      | finished => rw [hp] at hP; exact ⟨hP, by simp only [Collector.enqueued, hp]⟩
    obtain ⟨hw1, hw2⟩ := hw
    rw [hw2] at hL hC
    have hd : s.doneBlocks = [] := List.eq_nil_of_length_eq_zero (by omega)
    have hh : s.held = [] := List.eq_nil_of_length_eq_zero (by omega)
    have hb : s.blocks = [] := List.eq_nil_of_length_eq_zero (by omega)
    have hcount : ∀ x : Int, (s.writes.map WriteCall.id).count x
        = if 0 ≤ x ∧ x < ((g.numBlocks.toNat : Nat) : Int) then 1 else 0 := by
      intro x
      have := hC x
      rw [hd, hh, hb, count_range_map] at this
      simpa using this
    refine ⟨hw1, ?_, hd, hh, hb, ?_, ?_⟩
    · simp only [Collector.completed, hd, List.length_nil, zero_add]
      exact hw1
    · intro idx h0 h1
      rw [hcount idx, if_pos ⟨h0, by omega⟩]
    · intro w hwm
      have hmem : w.id ∈ s.writes.map WriteCall.id := List.mem_map_of_mem _ hwm
      have hpos := List.count_pos_iff.mpr hmem
      rw [hcount w.id] at hpos
      by_cases hin : 0 ≤ w.id ∧ w.id < ((g.numBlocks.toNat : Nat) : Int)
      · refine ⟨hin.1, by omega, hO w hwm, ?_⟩
        intro hf hb hno
        obtain ⟨_, _, _, _, _, _, hall⟩ := plan_facts hf hb hno hprep
        obtain ⟨_, _, _, hoff0, _, hoff1⟩ := hall w.id hin.1 (by omega)
        have hh : half64 = 9223372036854775808 := rfl
        rw [hO w hwm]
        exact wrap64_eq_self (by omega) hoff1
      · rw [if_neg hin] at hpos
        exact absurd hpos (by omega)
  refine ⟨main, ?_⟩
  intro hlt
  by_contra hc
  have hc1 : s.pc.closed = true := by
    cases h : s.pc.closed with
    | true => rfl
    | false => exact absurd h hc
  have := (main hc1).2.1
  omega

/-- The closed state `demoClosed` of the run `demoRun`. -/
theorem closed_complete_witness :
    (demoClosed.pc.closed = true →
        (demoClosed.writes.length : Int) = demoGlobals.numBlocks ∧
        (demoClosed.completed : Int) = demoGlobals.numBlocks ∧
        demoClosed.doneBlocks = [] ∧ demoClosed.held = [] ∧ demoClosed.blocks = [] ∧
        (∀ idx : Int, 0 ≤ idx → idx < demoGlobals.numBlocks →
          (demoClosed.writes.map WriteCall.id).count idx = 1) ∧
        (∀ w ∈ demoClosed.writes, 0 ≤ w.id ∧ w.id < demoGlobals.numBlocks ∧
          w.off = wrap64 (w.id * demoGlobals.blockSize) ∧
          (0 < demoArgs.fileSize → 0 < demoArgs.blockSize →
            demoArgs.fileSize + demoArgs.blockSize - 1 < half64 →
            w.off = w.id * demoGlobals.blockSize))) ∧
      ((demoClosed.completed : Int) < demoGlobals.numBlocks → demoClosed.pc.closed = false) :=
  closed_complete chanBound64 demoArgs demoGlobals sumDigest demoClosed (by decide)
    ⟨[0, 0, 0, 0, 0], demoRun, by decide⟩

end Fastsend
